import Mathlib

/-!
Verification of the city-walker web application backend against its
natural-language specification.

Shallow embedding conventions:
* Python `str` values are modelled as `List Char` (`PyStr`); all string
  operations used by the code (strip, lower, join, sorted) are defined
  structurally below so that they evaluate in the kernel.
* Python `float` arithmetic is modelled by exact rational arithmetic (`ℚ`).
* The helper `haversine_distance` lives in `app/utils/geo.py`, a file the
  repository imports but whose source is not available here; every theorem
  that depends on a distance is therefore universally quantified over the
  distance function, which makes the results hold in particular for the
  real haversine implementation.
* Network calls (Nominatim, OSRM) are modelled by passing the decoded
  response data as an explicit argument.
-/

namespace CityWalker

/-- Python strings, modelled as lists of characters. -/
abbrev PyStr := List Char

/-- ASCII whitespace recognised by Python's `str.strip`
(space, tab, newline, carriage return, vertical tab, form feed). -/
def pyIsSpace (c : Char) : Bool :=
  c.toNat = 32 || c.toNat = 9 || c.toNat = 10 || c.toNat = 13 || c.toNat = 11 || c.toNat = 12

/-- `str.lower` on a single ASCII character. -/
def pyLowerChar (c : Char) : Char :=
  if 65 ≤ c.toNat ∧ c.toNat ≤ 90 then Char.ofNat (c.toNat + 32) else c

/-- `str.upper` on a single ASCII character. -/
def pyUpperChar (c : Char) : Char :=
  if 97 ≤ c.toNat ∧ c.toNat ≤ 122 then Char.ofNat (c.toNat - 32) else c

/-- Python `str.lower()`. -/
def pyLower (s : PyStr) : PyStr := s.map pyLowerChar

/-- Python `str.upper()`. -/
def pyUpper (s : PyStr) : PyStr := s.map pyUpperChar

/-- Python `str.strip()`: drop whitespace from both ends. -/
def pyStrip (s : PyStr) : PyStr :=
  ((s.dropWhile pyIsSpace).reverse.dropWhile pyIsSpace).reverse

/-- Python `sorted` on a list of strings (lexicographic by code point).
`sorted` is a stable sort, but on a linearly ordered type any correct sort
produces the same list, so insertion sort is an exact model. -/
def pySorted (l : List PyStr) : List PyStr := List.insertionSort (· ≤ ·) l

/-- Python `sep.join(parts)`. -/
def pyJoin (sep : PyStr) (parts : List PyStr) : PyStr :=
  (parts.intersperse sep).flatten

/-- Decimal rendering of a natural number, as used by an f-string `{limit}`. -/
def natToStr (n : Nat) : PyStr := Nat.toDigits 10 n

/-! ### `_discover_cache_key` (src/backend/app/api/routes.py lines 60-64) -/

/-- `_discover_cache_key(city, limit, interests)`:
`city_norm = city.strip().lower()`;
`interest_str = ",".join(sorted(interests)) if interests else "default"`;
returns `f"discover:{city_norm}:{limit}:{interest_str}"`.
A `None` or empty interests list is falsy in Python, hence `"default"`. -/
def discoverCacheKey (city : PyStr) (limit : Nat) (interests : Option (List PyStr)) : PyStr :=
  let cityNorm := pyLower (pyStrip city)
  let interestStr : PyStr :=
    match interests with
    | some (i :: rest) => pyJoin [','] (pySorted (i :: rest))
    | _ => "default".data
  "discover:".data ++ cityNorm ++ [':'] ++ natToStr limit ++ [':'] ++ interestStr

/-! ### `LRUCache` (src/backend/app/utils/cache.py)

The `OrderedDict` is modelled as a list of `(key, timestamp, value)`
entries, least recently used first: `move_to_end` moves an entry to the
back, `popitem(last=False)` removes the front entry.  `time.time()` is
passed explicitly as a natural-number clock. -/

/-- State of the in-process cache: configuration plus the ordered entries. -/
structure LRUCache (V : Type) where
  maxSize : Nat
  ttl : Nat
  cache : List (PyStr × Nat × V)

/-- `OrderedDict.move_to_end(key)`: move the entry for `key` (if present) to
the back, preserving the relative order of the rest. -/
def moveToEnd {V : Type} (key : PyStr) (l : List (PyStr × Nat × V)) : List (PyStr × Nat × V) :=
  match l.find? (fun e => e.1 = key) with
  | some e => l.eraseP (fun e => e.1 = key) ++ [e]
  | none => l

/-- `LRUCache.get(key)` at clock time `now`: miss on absent key; expired
entries are deleted lazily; hits refresh recency. Returns the value (if any)
and the updated state. -/
def lruGet {V : Type} (c : LRUCache V) (now : Nat) (key : PyStr) :
    Option V × LRUCache V :=
  match c.cache.find? (fun e => e.1 = key) with
  | none => (none, c)
  | some (k, ts, v) =>
    if (now : Int) - ts > c.ttl then
      (none, { c with cache := c.cache.eraseP (fun e => e.1 = key) })
    else
      (some v, { c with cache := c.cache.eraseP (fun e => e.1 = key) ++ [(k, ts, v)] })

/-- `dict[key] = value` on an `OrderedDict`: update in place if the key
exists, otherwise append at the back. -/
def setAssoc {V : Type} (l : List (PyStr × Nat × V)) (key : PyStr) (tsv : Nat × V) :
    List (PyStr × Nat × V) :=
  if l.any (fun e => e.1 = key) then
    l.map (fun e => if e.1 = key then (key, tsv) else e)
  else
    l ++ [(key, tsv)]

/-- `LRUCache.set(key, value)` at clock time `now`: refresh recency if the
key exists, store `(now, value)`, then evict the front (least recently
used) entry if over capacity. -/
def lruSet {V : Type} (c : LRUCache V) (now : Nat) (key : PyStr) (v : V) : LRUCache V :=
  let l0 := if c.cache.any (fun e => e.1 = key) then moveToEnd key c.cache else c.cache
  let l1 := setAssoc l0 key (now, v)
  let l2 := if l1.length > c.maxSize then l1.tail else l1
  { c with cache := l2 }

/-- One cache operation with its clock time. -/
inductive LRUOp (V : Type) where
  | get (now : Nat) (key : PyStr)
  | set (now : Nat) (key : PyStr) (v : V)

/-- Run a sequence of operations, keeping only the resulting state. -/
def lruRun {V : Type} (c : LRUCache V) : List (LRUOp V) → LRUCache V
  | [] => c
  | .get now key :: rest => lruRun (lruGet c now key).2 rest
  | .set now key v :: rest => lruRun (lruSet c now key v) rest

/-- A freshly constructed cache: `LRUCache(max_size, ttl_seconds)`. -/
def lruInit (V : Type) (maxSize ttl : Nat) : LRUCache V :=
  { maxSize := maxSize, ttl := ttl, cache := [] }

/-! ### `OSMPlace.calculate_notability` (src/backend/app/services/osm/service.py lines 114-167)

OSM tags are modelled as an association list with unique keys; `dict.get`
is the first match.  Python float literals `0.5, 0.4, ...` are modelled by
the exact rationals they denote in the source text. -/

/-- OSM tag dictionary. -/
abbrev Tags := List (PyStr × PyStr)

/-- `self.tags.get(key, "")`. -/
def tagGet (tags : Tags) (key : PyStr) : PyStr :=
  (tags.lookup key).getD []

/-- Truthiness of `self.tags.get(key)`: present with a non-empty value. -/
def tagTruthy (tags : Tags) (key : PyStr) : Bool :=
  tagGet tags key ≠ []

/-- `self.tags.get("wikipedia") or self.tags.get("wikidata")`. -/
def hasWikiRef (tags : Tags) : Bool :=
  tagTruthy tags "wikipedia".data || tagTruthy tags "wikidata".data

/-- `if self.tags.get("wikipedia") or self.tags.get("wikidata"): score += 0.5`. -/
def notabilityWikiStep (tags : Tags) (score : ℚ) : ℚ :=
  if hasWikiRef tags then score + 5/10 else score

/-- The `building` branch chain of `calculate_notability`. -/
def notabilityBuildingStep (tags : Tags) (score : ℚ) : ℚ :=
  let building := tagGet tags "building".data
  if building = "cathedral".data then score + 4/10
  else if building = "church".data ∨ building = "chapel".data then score + 15/100
  else if building = "castle".data ∨ building = "palace".data then score + 35/100
  else score

/-- The `tourism` branch chain of `calculate_notability`. -/
def notabilityTourismStep (tags : Tags) (score : ℚ) : ℚ :=
  let tourism := tagGet tags "tourism".data
  if tourism = "attraction".data then score + 25/100
  else if tourism = "museum".data ∨ tourism = "viewpoint".data then score + 2/10
  else score

/-- The `historic` branch chain of `calculate_notability` (note the final
`elif historic:` catch-all worth `+0.1`). -/
def notabilityHistoricStep (tags : Tags) (score : ℚ) : ℚ :=
  let historic := tagGet tags "historic".data
  if historic = "castle".data ∨ historic = "palace".data ∨ historic = "fort".data then
    score + 3/10
  else if historic = "monument".data ∨ historic = "memorial".data then
    (if hasWikiRef tags then score + 15/100 else score + 2/100)
  else if historic ≠ [] then score + 1/10
  else score

/-- The `man_made` branch of `calculate_notability`. -/
def notabilityManMadeStep (tags : Tags) (score : ℚ) : ℚ :=
  if tagGet tags "man_made".data = "tower".data then
    (if hasWikiRef tags then score + 35/100 else score + 5/100)
  else score

/-- `if self.tags.get("website") or self.tags.get("contact:website")`. -/
def notabilityWebsiteStep (tags : Tags) (score : ℚ) : ℚ :=
  if tagTruthy tags "website".data || tagTruthy tags "contact:website".data then
    score + 5/100
  else score

/-- The `score` accumulation of `OSMPlace.calculate_notability`: the source's
sequential branch groups applied in order to `score = 0.0` (float literals
as the exact rationals they denote). -/
def calculateNotabilityScore (tags : Tags) : ℚ :=
  notabilityWebsiteStep tags (notabilityManMadeStep tags (notabilityHistoricStep tags
    (notabilityTourismStep tags (notabilityBuildingStep tags (notabilityWikiStep tags 0)))))

/-- `OSMPlace.calculate_notability`: the accumulated score, capped at 1.0. -/
def calculateNotability (tags : Tags) : ℚ :=
  min 1 (calculateNotabilityScore tags)

/-- The sum of contributions of the notability signal table exactly as the
specification lists it, tags outside the table contributing nothing.
(This follows the spec's words, for comparison with `calculateNotability`,
which follows the source.) -/
def specNotabilityTableSum (tags : Tags) : ℚ :=
  let building := tagGet tags "building".data
  let tourism := tagGet tags "tourism".data
  let historic := tagGet tags "historic".data
  (if hasWikiRef tags then 5/10 else 0)
    + (if building = "cathedral".data then 4/10 else 0)
    + (if building = "church".data ∨ building = "chapel".data then 15/100 else 0)
    + (if building = "castle".data ∨ building = "palace".data then 35/100 else 0)
    + (if tourism = "attraction".data then 25/100 else 0)
    + (if tourism = "museum".data ∨ tourism = "viewpoint".data then 2/10 else 0)
    + (if historic = "castle".data ∨ historic = "palace".data ∨ historic = "fort".data
       then 3/10 else 0)
    + (if historic = "monument".data ∨ historic = "memorial".data then
         (if hasWikiRef tags then 15/100 else 2/100) else 0)
    + (if tagGet tags "man_made".data = "tower".data then
         (if hasWikiRef tags then 35/100 else 5/100) else 0)
    + (if tagTruthy tags "website".data then 5/100 else 0)

/-- The notability score exactly as the specification's table claims it:
the sum of the listed contributions, capped at 1.0. -/
def specNotabilityTable (tags : Tags) : ℚ :=
  min 1 (specNotabilityTableSum tags)

/-- The signal-table sum amended to match the code: any other non-empty
`historic` value contributes `+0.1`, and the website signal also fires on a
`contact:website` tag. -/
def specNotabilityAmendedSum (tags : Tags) : ℚ :=
  let building := tagGet tags "building".data
  let tourism := tagGet tags "tourism".data
  let historic := tagGet tags "historic".data
  (if hasWikiRef tags then 5/10 else 0)
    + (if building = "cathedral".data then 4/10 else 0)
    + (if building = "church".data ∨ building = "chapel".data then 15/100 else 0)
    + (if building = "castle".data ∨ building = "palace".data then 35/100 else 0)
    + (if tourism = "attraction".data then 25/100 else 0)
    + (if tourism = "museum".data ∨ tourism = "viewpoint".data then 2/10 else 0)
    + (if historic = "castle".data ∨ historic = "palace".data ∨ historic = "fort".data
       then 3/10 else 0)
    + (if historic = "monument".data ∨ historic = "memorial".data then
         (if hasWikiRef tags then 15/100 else 2/100) else 0)
    + (if historic ≠ [] ∧
          ¬(historic = "castle".data ∨ historic = "palace".data ∨ historic = "fort".data) ∧
          ¬(historic = "monument".data ∨ historic = "memorial".data) then 1/10 else 0)
    + (if tagGet tags "man_made".data = "tower".data then
         (if hasWikiRef tags then 35/100 else 5/100) else 0)
    + (if tagTruthy tags "website".data || tagTruthy tags "contact:website".data
       then 5/100 else 0)

/-- The amended notability table, capped at 1.0. -/
def specNotabilityAmended (tags : Tags) : ℚ :=
  min 1 (specNotabilityAmendedSum tags)

/-! ### `_geocode_with_distance_check`
(src/backend/app/services/place_validator/service.py lines 220-273)

A Nominatim result is reduced to the fields the filter reads: parsed
latitude/longitude (`float(result.get("lat", 0))`) and
`result.get("address", {}).get("country_code", "")`.  The two HTTP
responses (one per query string) are passed as explicit candidate lists;
a failed request is an empty list (its exception only skips the query).
The distance function (`haversine_distance` from the absent
`app/utils/geo.py`) is an explicit parameter `hav`, taking
`(lat1, lon1, lat2, lon2)` and returning kilometres. -/

/-- The fields of a Nominatim search result used by the distance check. -/
structure GeoResult where
  lat : ℚ
  lon : ℚ
  countryCode : PyStr
deriving DecidableEq

/-- The fields of `_get_city_info`'s result used by the distance check. -/
structure CityInfo where
  lat : ℚ
  lon : ℚ
  countryCode : PyStr
deriving DecidableEq

/-- The inner `for result in results` loop of `_geocode_with_distance_check`:
skip `(0, 0)` coordinates, reject candidates farther than 25 km from the
city center, reject candidates whose country code conflicts with the
city's, return the first survivor. -/
def geocodeScanResults (hav : ℚ → ℚ → ℚ → ℚ → ℚ) (ci : CityInfo) :
    List GeoResult → Option GeoResult
  | [] => none
  | r :: rest =>
    if r.lat = 0 ∧ r.lon = 0 then geocodeScanResults hav ci rest
    else
      let distance := hav r.lat r.lon ci.lat ci.lon
      if distance > 25 then geocodeScanResults hav ci rest
      else
        let resultCountry := pyLower r.countryCode
        let cityCountry := pyLower ci.countryCode
        if cityCountry ≠ [] ∧ resultCountry ≠ [] ∧ resultCountry ≠ cityCountry then
          geocodeScanResults hav ci rest
        else some r

/-- `_geocode_with_distance_check`: two queries (`"{name}, {city}"`, then
with the country appended); the first query whose scan yields a survivor
wins. -/
def geocodeWithDistanceCheck (hav : ℚ → ℚ → ℚ → ℚ → ℚ) (ci : CityInfo)
    (resultsQuery1 resultsQuery2 : List GeoResult) : Option GeoResult :=
  match geocodeScanResults hav ci resultsQuery1 with
  | some r => some r
  | none => geocodeScanResults hav ci resultsQuery2

/-! ### Polyline codec (src/backend/app/services/route_optimizer/service.py lines 411-474)

`_decode_polyline` and `_encode_polyline`.  Bitwise operations of the
source act on disjoint bit ranges and are written here in the equivalent
arithmetic form:
* `result |= (b & 0x1f) << shift` ORs a 5-bit payload into bits
  `[shift, shift+5)` of an accumulator that is `< 2^shift`, hence equals
  `result + (b mod 32) * 2^shift`;
* `0x20 | (val & 0x1f)` has disjoint operands, hence equals
  `32 + val % 32`;
* `~x` on a Python int is `-x - 1`; `x >> 1` is `x / 2`; `val >>= 5` on a
  non-negative int is `val / 32`.
Python's `round` (banker's rounding) is modelled exactly on `ℚ`. -/

/-- Python `round`: round half to even. -/
def pyRound (q : ℚ) : Int :=
  let f := ⌊q⌋
  let r := q - f
  if r < 1/2 then f
  else if 1/2 < r then f + 1
  else if f % 2 = 0 then f else f + 1

/-- The inner chunk-reading loop of `_decode_polyline`: read base-32 chunks
(5 payload bits per character, terminated by a character with `b < 0x20`),
accumulating into `result` at bit position `shift`.  Returns the zig-zag
value and the remaining characters, or `none` when the loop would run past
the end of the string (an `IndexError` in Python). -/
def readChunks : List Char → Nat → Nat → Option (Nat × List Char)
  | [], _, _ => none
  | c :: rest, shift, result =>
    let b : Int := (c.toNat : Int) - 63
    let result := result + (b % 32).toNat * 2 ^ shift
    if b < 32 then some (result, rest)
    else readChunks rest (shift + 5) result

/-- `~(result >> 1) if result & 1 else result >> 1` on a non-negative int. -/
def unzigzag (r : Nat) : Int :=
  if r % 2 = 1 then -(r / 2 : Int) - 1 else (r / 2 : Int)

/-- The chunk loop consumes at least one character (termination measure for
`decodeAux`). -/
def readChunksLengthLt : ∀ (cs : List Char) (shift result r : Nat) (rest : List Char),
    readChunks cs shift result = some (r, rest) → rest.length < cs.length
  | [], _, _, _, _, h => by simp [readChunks] at h
  | c :: cs, shift, result, r, rest, h => by
    rw [readChunks] at h
    by_cases hb : ((c.toNat : Int) - 63) < 32
    · rw [if_pos hb] at h
      injection h with h'
      injection h' with _ hrest
      subst hrest
      simp
    · rw [if_neg hb] at h
      have := readChunksLengthLt cs (shift + 5) _ r rest h
      simpa using Nat.lt_succ_of_lt this

/-- The body of `_decode_polyline`'s outer loop: read a latitude delta and a
longitude delta, accumulate them, emit `(lat / 1e5, lng / 1e5)`. -/
def decodeAux (lat lng : Int) : List Char → Option (List (ℚ × ℚ))
  | [] => some []
  | c :: rest =>
    match h1 : readChunks (c :: rest) 0 0 with
    | none => none
    | some (r1, cs1) =>
      match h2 : readChunks cs1 0 0 with
      | none => none
      | some (r2, cs2) =>
        let lat' := lat + unzigzag r1
        let lng' := lng + unzigzag r2
        match decodeAux lat' lng' cs2 with
        | none => none
        | some pts => some (((lat' : ℚ) / 100000, (lng' : ℚ) / 100000) :: pts)
termination_by cs => cs.length
decreasing_by
  exact Nat.lt_trans (readChunksLengthLt _ _ _ _ _ h2) (readChunksLengthLt _ _ _ _ _ h1)

/-- `_decode_polyline(encoded)`; `none` models a raised exception. -/
def decodePolyline (encoded : PyStr) : Option (List (ℚ × ℚ)) :=
  decodeAux 0 0 encoded

/-- The chunk-emitting loop of `_encode_polyline` for one zig-zag value. -/
def encodeChunks (v : Nat) : List Char :=
  if v ≥ 32 then Char.ofNat (32 + v % 32 + 63) :: encodeChunks (v / 32)
  else [Char.ofNat (v + 63)]

/-- `~(val << 1) if val < 0 else val << 1`, as a natural number. -/
def zigzag (d : Int) : Nat :=
  (if d < 0 then -(d * 2) - 1 else d * 2).toNat

/-- Chunk encoding of one signed delta. -/
def encodeValue (d : Int) : List Char := encodeChunks (zigzag d)

/-- The point loop of `_encode_polyline`: scale by 1e5, round, emit the two
deltas against the previous point. -/
def encodeAux (prevLat prevLng : Int) : List (ℚ × ℚ) → List Char
  | [] => []
  | (lat, lng) :: rest =>
    let latInt := pyRound (lat * 100000)
    let lngInt := pyRound (lng * 100000)
    encodeValue (latInt - prevLat) ++ encodeValue (lngInt - prevLng) ++
      encodeAux latInt lngInt rest

/-- `_encode_polyline(points)`. -/
def encodePolyline (points : List (ℚ × ℚ)) : PyStr :=
  encodeAux 0 0 points

/-! ### Day partitioner (`organize_pois_into_days`, src/backend/app/api/routes.py lines 104-222)

A `POI` is reduced to the fields the partitioner and optimizer read:
coordinates and the optional visit duration.  A `DayPlan` keeps the fields
the claims are about (`day_number`, `pois`, `total_visit_time_minutes`);
the `theme` string and the per-day route attached later by the caller do
not affect any claim and are omitted. -/

/-- The fields of a `POI` read by the partitioner and the optimizer. -/
structure POI where
  lat : ℚ
  lng : ℚ
  visitDurationMinutes : Option Nat
deriving DecidableEq

/-- `poi.visit_duration_minutes or 60`. -/
def poiVisitMinutes (p : POI) : Nat := p.visitDurationMinutes.getD 60

/-- `sum(poi.visit_duration_minutes or 60 for poi in day_pois)`. -/
def totalVisitTime (pois : List POI) : Nat := (pois.map poiVisitMinutes).sum

/-- The `DayPlan` fields the claims are about. -/
structure DayPlan where
  dayNumber : Nat
  pois : List POI
  totalVisitTimeMinutes : Nat
deriving DecidableEq

/-- `math.ceil(a / b)` for non-negative ints with `b > 0`. -/
def ceilDiv (a b : Nat) : Nat := (a + b - 1) / b

/-- Python `min(range(n), key=f)`: the first index attaining the minimum
(`min` keeps the earlier element on ties). Returns `0` for `n = 0`, where
Python would raise. -/
def argminIdx (f : Nat → ℚ) (n : Nat) : Nat :=
  ((List.range n).drop 1).foldl (fun best i => if f i < f best then i else best) 0

/-- `argminIdx` stays in range. -/
def argminIdxLt (f : Nat → ℚ) (n : Nat) (hn : 0 < n) : argminIdx f n < n := by
  have key : ∀ (l : List Nat) (b : Nat), (∀ x ∈ l, x < n) → b < n →
      l.foldl (fun best i => if f i < f best then i else best) b < n := by
    intro l
    induction l with
    | nil => intro b _ hb; simpa using hb
    | cons x xs ih =>
      intro b hl hb
      simp only [List.foldl_cons]
      by_cases hx : f x < f b
      · rw [if_pos hx]
        exact ih _ (fun y hy => hl y (List.mem_cons_of_mem _ hy)) (hl x (List.mem_cons_self x xs))
      · rw [if_neg hx]
        exact ih _ (fun y hy => hl y (List.mem_cons_of_mem _ hy)) hb
  exact key _ 0 (fun x hx => List.mem_range.mp (List.mem_of_mem_drop hx)) hn

/-- The greedy chain of `_sort_pois_geographically`: repeatedly pop the
remaining POI nearest to the last chosen one.  `hav` is the
`haversine_distance` parameter. -/
def sortChain (hav : ℚ → ℚ → ℚ → ℚ → ℚ) (last : POI) (remaining : List POI) : List POI :=
  match remaining with
  | [] => []
  | p :: rs =>
    let i := argminIdx (fun i =>
      hav last.lat last.lng (((p :: rs).getD i ⟨0, 0, none⟩).lat)
        (((p :: rs).getD i ⟨0, 0, none⟩).lng)) (p :: rs).length
    let next := (p :: rs).getD i ⟨0, 0, none⟩
    next :: sortChain hav next ((p :: rs).eraseIdx i)
termination_by remaining.length
decreasing_by
  have hi := argminIdxLt (fun i =>
    hav last.lat last.lng (((p :: rs).getD i ⟨0, 0, none⟩).lat)
      (((p :: rs).getD i ⟨0, 0, none⟩).lng)) (p :: rs).length (by simp)
  have h2 := List.length_eraseIdx_add_one hi
  omega

/-- `_sort_pois_geographically`: start from the POI nearest the centroid,
then the greedy nearest-neighbour chain. -/
def sortPoisGeographically (hav : ℚ → ℚ → ℚ → ℚ → ℚ) (pois : List POI) : List POI :=
  if pois.length ≤ 1 then pois
  else
    let avgLat := (pois.map (·.lat)).sum / pois.length
    let avgLng := (pois.map (·.lng)).sum / pois.length
    let startIdx := argminIdx (fun i =>
      hav ((pois.getD i ⟨0, 0, none⟩).lat) ((pois.getD i ⟨0, 0, none⟩).lng) avgLat avgLng)
      pois.length
    let start := pois.getD startIdx ⟨0, 0, none⟩
    start :: sortChain hav start (pois.eraseIdx startIdx)

/-- Step 3 of `organize_pois_into_days`: the
`for day_num in range(1, num_days + 1)` loop.  `daysLeft` is
`num_days - day_num + 1`; each day takes
`min(max(3, min(10, ceil(len(remaining) / remaining_days))), len(remaining))`
POIs.  Returns the day plans and the leftover POIs. -/
def distributeDays (remaining : List POI) (dayNum daysLeft : Nat) :
    List DayPlan × List POI :=
  match daysLeft with
  | 0 => ([], remaining)
  | dl + 1 =>
    if remaining.isEmpty then ([], remaining)
    else
      let remainingDays := dl + 1
      let poisForThisDay := ceilDiv remaining.length remainingDays
      let poisForThisDay := max 3 (min 10 poisForThisDay)
      let poisForThisDay := min poisForThisDay remaining.length
      let dayPois := remaining.take poisForThisDay
      let rest := distributeDays (remaining.drop poisForThisDay) (dayNum + 1) dl
      (⟨dayNum, dayPois, totalVisitTime dayPois⟩ :: rest.1, rest.2)

/-- `for i, day in enumerate(day_plans): day.day_number = i + 1`. -/
def renumberDays (days : List DayPlan) (start : Nat) : List DayPlan :=
  match days with
  | [] => []
  | d :: rest => ⟨start, d.pois, d.totalVisitTimeMinutes⟩ :: renumberDays rest (start + 1)

/-- Python `min(range(len(day_plans)), key=lambda i: len(day_plans[i].pois))`. -/
def minDayIdx (days : List DayPlan) : Nat :=
  argminIdx (fun i => ((days.getD i ⟨0, [], 0⟩).pois.length : ℚ)) days.length

/-- `day_plans[i].pois.append(poi)` plus the visit-time update: replace the
`i`-th day by its extended version. -/
def appendToDay (days : List DayPlan) (i : Nat) (poi : POI) : List DayPlan :=
  let d := days.getD i ⟨0, [], 0⟩
  days.set i ⟨d.dayNumber, d.pois ++ [poi], d.totalVisitTimeMinutes + poiVisitMinutes poi⟩

/-- Step 4 of `organize_pois_into_days`: the `while remaining_pois` loop.
Each round either appends the front leftover POI to the day with the fewest
POIs (if it has room), opens a new day (if fewer than `num_days` exist), or
force-appends to the day with the fewest POIs. -/
def distributeLeftovers (days : List DayPlan) (remaining : List POI) (numDays : Nat) :
    List DayPlan :=
  match remaining with
  | [] => days
  | poi :: rest =>
    let minIdx := minDayIdx days
    if (days.getD minIdx ⟨0, [], 0⟩).pois.length < 10 then
      distributeLeftovers (appendToDay days minIdx poi) rest numDays
    else if days.length < numDays then
      let dayPois := (poi :: rest).take (min 10 (poi :: rest).length)
      let rest' := (poi :: rest).drop dayPois.length
      distributeLeftovers
        (days ++ [⟨days.length + 1, dayPois, totalVisitTime dayPois⟩]) rest' numDays
    else
      distributeLeftovers (appendToDay days minIdx poi) rest numDays
termination_by remaining.length
decreasing_by
  · simp
  · simp only [List.length_drop, List.length_take, List.length_cons]
    omega
  · simp

/-- `organize_pois_into_days(pois, num_days, transport_mode, preserve_order)`.
The `transport_mode` argument only feeds the omitted theme computation.
The unused `target_per_day` of the source is dead code and not modelled. -/
def organizePoisIntoDays (hav : ℚ → ℚ → ℚ → ℚ → ℚ) (pois : List POI) (numDays : Nat)
    (preserveOrder : Bool) : List DayPlan :=
  if pois.isEmpty then []
  else if numDays = 1 then
    let dayPois := pois.take 10
    [⟨1, dayPois, totalVisitTime dayPois⟩]
  else
    let sortedPois := if preserveOrder then pois else sortPoisGeographically hav pois
    let step := distributeDays sortedPois 1 numDays
    let days := distributeLeftovers step.1 step.2 numDays
    renumberDays days 1

/-! ### Route optimizer (src/backend/app/services/route_optimizer/service.py)

`DistanceMatrix` holds the POI list and the two `n × n` matrices as index
functions (the OSRM response, or the haversine fallback, is whatever the
functions return).  `optimize_order`, its nested helpers, `_two_opt_gain`,
`_trim_to_time_limit` and the POI-ordering part of `create_optimized_route`
are translated below; the route-geometry HTTP calls return the ordered POI
list unchanged in `ordered_pois`, so the ordering claims are settled on
these functions. -/

/-- `DistanceMatrix` (dataclass): POIs plus distance and duration matrices. -/
structure DistanceMatrix where
  pois : List POI
  distances : Nat → Nat → ℚ
  durations : Nat → Nat → ℚ

/-- Python `min(l, key=f)` folded from a first candidate `b`:
ties keep the earlier element. -/
def minFrom (f : Nat → ℚ) (b : Nat) (l : List Nat) : Nat :=
  l.foldl (fun best i => if f i < f best then i else best) b

/-- The `while len(visited) < n` loop of `build_tour_from_start`: move to the
nearest unvisited neighbour with positive distance; if none exists, append
the remaining unvisited nodes in index order.  `fuel = n` bounds the loop
(each pass grows `visited`). -/
def nnAux (m : DistanceMatrix) (fuel : Nat) (visited : List Nat) (current : Nat)
    (total : ℚ) : List Nat × ℚ :=
  let n := m.pois.length
  match fuel with
  | 0 => (visited, total)
  | fuel + 1 =>
    if visited.length < n then
      let neighbors := (List.range n).filter
        (fun j => !visited.contains j && decide (m.distances current j > 0))
      match neighbors with
      | [] => (visited ++ (List.range n).filter (fun j => !visited.contains j), total)
      | j0 :: js =>
        let next := minFrom (fun j => m.distances current j) j0 js
        nnAux m fuel (visited ++ [next]) next (total + m.distances current next)
    else (visited, total)

/-- `build_tour_from_start(start)`: nearest-neighbour tour and its length. -/
def buildTourFromStart (m : DistanceMatrix) (start : Nat) : List Nat × ℚ :=
  nnAux m m.pois.length [start] start 0

/-- `sum(matrix.distances[tour[i]][tour[i+1]] for i in range(len(tour)-1))`,
written as the equivalent structural recursion over consecutive pairs. -/
def pathLen (dm : Nat → Nat → ℚ) : List Nat → ℚ
  | a :: b :: rest => dm a b + pathLen dm (b :: rest)
  | _ => 0

/-- `calculate_tour_distance(tour)`. -/
def calcTourDistance (m : DistanceMatrix) (tour : List Nat) : ℚ :=
  pathLen m.distances tour

/-- `_two_opt_gain(tour, durations, i, j)`.  (At its only call site the
`durations` argument receives `matrix.distances`.) -/
def twoOptGain (dm : Nat → Nat → ℚ) (tour : List Nat) (i j : Nat) : ℚ :=
  let n := tour.length
  let a := tour.getD (i - 1) 0
  let b := tour.getD i 0
  let c := tour.getD j 0
  let e := tour.getD ((j + 1) % n) 0
  let current := dm a b + dm c e
  let new := dm a c + dm b e
  new - current

/-- `best_tour[i:j+1] = list(reversed(best_tour[i:j+1]))`. -/
def reverseSegment (tour : List Nat) (i j : Nat) : List Nat :=
  tour.take i ++ ((tour.drop i).take (j + 1 - i)).reverse ++ tour.drop (j + 1)

/-- One scan of the double `for` loop of `two_opt_improve`: the first pair
`(i, j)`, `1 ≤ i ≤ n-2`, `i+1 ≤ j ≤ n-1` in lexicographic order whose gain
beats the `-0.1` threshold (the loop breaks out of both levels as soon as
one is found).  The float literal `0.1` is modelled by `1/10`. -/
def findImprove (m : DistanceMatrix) (tour : List Nat) : Option (Nat × Nat) :=
  let n := m.pois.length
  ((List.range' 1 (n - 2)).flatMap
      (fun i => (List.range' (i + 1) (n - (i + 1))).map (fun j => (i, j)))).find?
    (fun p => decide (twoOptGain m.distances tour p.1 p.2 < -(1/10)))

/-- The `while improved and iteration < max_iterations` loop of
`two_opt_improve`: apply the first improving swap and rescan, at most
`fuel` times. -/
def twoOptLoop (m : DistanceMatrix) (fuel : Nat) (tour : List Nat) : List Nat :=
  match fuel with
  | 0 => tour
  | f + 1 =>
    match findImprove m tour with
    | none => tour
    | some (i, j) => twoOptLoop m f (reverseSegment tour i j)

/-- `two_opt_improve(tour)` with `max_iterations = 100`. -/
def twoOptImprove (m : DistanceMatrix) (tour : List Nat) : List Nat :=
  twoOptLoop m 100 tour

/-- The `for start in range(n)` loop of `optimize_order`: keep the tour with
the strictly smallest `calculate_tour_distance` (earlier start wins ties,
since the first candidate always replaces the `None`/`inf` initial state). -/
def minTourFold (m : DistanceMatrix) (t0 : List Nat) (ts : List (List Nat)) : List Nat :=
  ts.foldl (fun best t =>
    if calcTourDistance m t < calcTourDistance m best then t else best) t0

/-- `optimize_order(matrix, start_index)`. -/
def optimizeOrder (m : DistanceMatrix) (startIndex : Option Nat) : List Nat :=
  let n := m.pois.length
  if n ≤ 1 then List.range n
  else if n = 2 then (if startIndex = some 1 then [1, 0] else [0, 1])
  else
    match startIndex with
    | some s => twoOptImprove m (buildTourFromStart m s).1
    | none =>
      match (List.range n).map (fun s => twoOptImprove m (buildTourFromStart m s).1) with
      | [] => List.range n
      | t0 :: ts => minTourFold m t0 ts

/-- `TimeConstraint` (app/models): `6h | day | 2days | 3days | 5days`. -/
inductive TimeConstraint where
  | halfDay | day | twoDays | threeDays | fiveDays
deriving DecidableEq

/-- `MAX_POIS_BY_TIME`. -/
def maxPoisByTime : TimeConstraint → Nat
  | .halfDay => 25
  | .day => 30
  | .twoDays => 40
  | .threeDays => 50
  | .fiveDays => 50

/-- `TIME_LIMITS` (seconds). -/
def timeLimits : TimeConstraint → ℚ
  | .halfDay => 21600
  | .day => 28800
  | .twoDays => 57600
  | .threeDays => 86400
  | .fiveDays => 144000

/-- The `for i in range(1, len(order))` loop of `_trim_to_time_limit`,
with early break once the budget is exceeded. -/
def trimLoop (dm : Nat → Nat → ℚ) (ordered : List POI) (order : List Nat) (limit : ℚ) :
    List Nat → ℚ → List POI
  | [], _ => []
  | i :: restIdx, total =>
    let travel := dm (order.getD (i - 1) 0) (order.getD i 0)
    if total + travel ≤ limit then
      ordered.getD i ⟨0, 0, none⟩ :: trimLoop dm ordered order limit restIdx (total + travel)
    else []

/-- `_trim_to_time_limit(ordered_pois, matrix, order, time_limit)`. -/
def trimToTimeLimit (dm : Nat → Nat → ℚ) (ordered : List POI) (order : List Nat)
    (limit : ℚ) : List POI :=
  if ordered.length ≤ 1 then ordered
  else
    ordered.getD 0 ⟨0, 0, none⟩ ::
      trimLoop dm ordered order limit (List.range' 1 (order.length - 1)) 0

/-- The POI-ordering part of `create_optimized_route(pois, mode,
time_constraint, starting_point, is_round_trip, skip_optimization)`:
truncate to the time-constraint cap, build the matrix (entries supplied by
`dist`/`dur`), seed from the POI nearest the starting point (the source
sorts `(index, distance)` pairs by distance — a stable sort, so
`[0][0]` is the first index attaining the minimum), optimize, trim.  The
returned route's `ordered_pois` is exactly this list (both the OSRM and the
fallback branches of the geometry call pass it through unchanged).  The
deprecated unused `start_index` parameter is dropped. -/
def createOptimizedOrderedPois (hav : ℚ → ℚ → ℚ → ℚ → ℚ)
    (dist dur : Nat → Nat → ℚ) (pois : List POI)
    (timeConstraint : Option TimeConstraint) (startingPoint : Option (ℚ × ℚ))
    (skipOptimization : Bool) : List POI :=
  let pois :=
    match timeConstraint with
    | some tc => if pois.length > maxPoisByTime tc then pois.take (maxPoisByTime tc) else pois
    | none => pois
  let m : DistanceMatrix := ⟨pois, dist, dur⟩
  if skipOptimization then pois
  else
    let firstPoiIndex : Option Nat :=
      match startingPoint with
      | some (slat, slng) =>
        some (argminIdx (fun i =>
          hav slat slng ((pois.getD i ⟨0, 0, none⟩).lat) ((pois.getD i ⟨0, 0, none⟩).lng))
          pois.length)
      | none => none
    let order := optimizeOrder m firstPoiIndex
    let ordered := order.map (fun i => pois.getD i ⟨0, 0, none⟩)
    match timeConstraint with
    | some tc => trimToTimeLimit dur ordered order (timeLimits tc)
    | none => ordered

/-- Total length of a tour as a closed cycle: the consecutive legs plus the
edge from the last stop back to the first. -/
def cycleLen (dm : Nat → Nat → ℚ) (tour : List Nat) : ℚ :=
  match tour with
  | [] => 0
  | a :: rest => pathLen dm (a :: rest) + dm ((a :: rest).getLastD 0) a

/-- Asymmetric duration/distance matrix entries used to refute C4 as stated:
`d(0,1)=1, d(0,2)=5, d(1,0)=0, d(1,2)=1, d(2,0)=10, d(2,1)=1`, `0` elsewhere. -/
def c4cexDist : Nat → Nat → ℚ := fun i j =>
  if i = 0 ∧ j = 1 then 1 else if i = 0 ∧ j = 2 then 5
  else if i = 1 ∧ j = 2 then 1 else if i = 2 ∧ j = 0 then 10
  else if i = 2 ∧ j = 1 then 1 else 0

/-- Three-POI matrix with the asymmetric entries above. -/
def c4cexMat : DistanceMatrix := ⟨[⟨0, 0, none⟩, ⟨1, 0, none⟩, ⟨2, 0, none⟩],
  c4cexDist, c4cexDist⟩

/-- Symmetric matrix entries `(i - j)^2` for the C4 witness. -/
def c4symDist : Nat → Nat → ℚ := fun i j => ((i : ℚ) - j) ^ 2

/-- Three-POI matrix with the symmetric entries above. -/
def c4symMat : DistanceMatrix := ⟨[⟨0, 0, none⟩, ⟨1, 0, none⟩, ⟨2, 0, none⟩],
  c4symDist, c4symDist⟩

/-! ## Theorems -/

/-- Each branch group only shifts the incoming score by its own
contribution. -/
theorem notabilityWikiStep_shift (tags : Tags) (s : ℚ) :
    notabilityWikiStep tags s = s + notabilityWikiStep tags 0 := by
  unfold notabilityWikiStep
  split_ifs <;> ring1

/-- `building` branch group: shift property. -/
theorem notabilityBuildingStep_shift (tags : Tags) (s : ℚ) :
    notabilityBuildingStep tags s = s + notabilityBuildingStep tags 0 := by
  unfold notabilityBuildingStep
  dsimp only
  split_ifs <;> ring1

/-- `tourism` branch group: shift property. -/
theorem notabilityTourismStep_shift (tags : Tags) (s : ℚ) :
    notabilityTourismStep tags s = s + notabilityTourismStep tags 0 := by
  unfold notabilityTourismStep
  dsimp only
  split_ifs <;> ring1

/-- `historic` branch group: shift property. -/
theorem notabilityHistoricStep_shift (tags : Tags) (s : ℚ) :
    notabilityHistoricStep tags s = s + notabilityHistoricStep tags 0 := by
  unfold notabilityHistoricStep
  dsimp only
  split_ifs <;> ring1

/-- `man_made` branch group: shift property. -/
theorem notabilityManMadeStep_shift (tags : Tags) (s : ℚ) :
    notabilityManMadeStep tags s = s + notabilityManMadeStep tags 0 := by
  unfold notabilityManMadeStep
  dsimp only
  split_ifs <;> ring1

/-- `website` branch group: shift property. -/
theorem notabilityWebsiteStep_shift (tags : Tags) (s : ℚ) :
    notabilityWebsiteStep tags s = s + notabilityWebsiteStep tags 0 := by
  unfold notabilityWebsiteStep
  dsimp only
  split_ifs <;> ring1

/-- The `building` elif chain equals the sum of the table's three disjoint
building indicators. -/
theorem notabilityBuildingStep_zero (tags : Tags) :
    notabilityBuildingStep tags 0 =
      (if tagGet tags "building".data = "cathedral".data then 4/10 else 0)
      + (if tagGet tags "building".data = "church".data ∨
            tagGet tags "building".data = "chapel".data then 15/100 else 0)
      + (if tagGet tags "building".data = "castle".data ∨
            tagGet tags "building".data = "palace".data then 35/100 else 0) := by
  unfold notabilityBuildingStep
  dsimp only
  split_ifs <;> first | ring1 | (exfalso; simp_all; done) | (exfalso; casesm* _ ∨ _ <;> simp_all)

/-- The `tourism` elif chain equals the sum of the table's two disjoint
tourism indicators. -/
theorem notabilityTourismStep_zero (tags : Tags) :
    notabilityTourismStep tags 0 =
      (if tagGet tags "tourism".data = "attraction".data then 25/100 else 0)
      + (if tagGet tags "tourism".data = "museum".data ∨
            tagGet tags "tourism".data = "viewpoint".data then 2/10 else 0) := by
  unfold notabilityTourismStep
  dsimp only
  split_ifs <;> first | ring1 | (exfalso; simp_all; done) | (exfalso; casesm* _ ∨ _ <;> simp_all)

/-- The `historic` elif chain equals the sum of the table's indicators plus
the catch-all indicator. -/
theorem notabilityHistoricStep_zero (tags : Tags) :
    notabilityHistoricStep tags 0 =
      (if tagGet tags "historic".data = "castle".data ∨
          tagGet tags "historic".data = "palace".data ∨
          tagGet tags "historic".data = "fort".data then 3/10 else 0)
      + (if tagGet tags "historic".data = "monument".data ∨
            tagGet tags "historic".data = "memorial".data then
           (if hasWikiRef tags then 15/100 else 2/100) else 0)
      + (if tagGet tags "historic".data ≠ [] ∧
            ¬(tagGet tags "historic".data = "castle".data ∨
              tagGet tags "historic".data = "palace".data ∨
              tagGet tags "historic".data = "fort".data) ∧
            ¬(tagGet tags "historic".data = "monument".data ∨
              tagGet tags "historic".data = "memorial".data) then 1/10 else 0) := by
  unfold notabilityHistoricStep
  dsimp only
  split_ifs <;> first | ring1 | (exfalso; simp_all; done) | (exfalso; casesm* _ ∨ _ <;> simp_all)

/-- The wiki-reference branch equals its indicator. -/
theorem notabilityWikiStep_zero (tags : Tags) :
    notabilityWikiStep tags 0 = (if hasWikiRef tags then 5/10 else 0) := by
  unfold notabilityWikiStep
  split_ifs <;> ring1

/-- The website branch equals its indicator. -/
theorem notabilityWebsiteStep_zero (tags : Tags) :
    notabilityWebsiteStep tags 0 =
      (if tagTruthy tags "website".data || tagTruthy tags "contact:website".data
       then 5/100 else 0) := by
  unfold notabilityWebsiteStep
  split_ifs <;> ring1

/-- The `man_made` branch equals its indicator. -/
theorem notabilityManMadeStep_zero (tags : Tags) :
    notabilityManMadeStep tags 0 =
      (if tagGet tags "man_made".data = "tower".data then
        (if hasWikiRef tags then 35/100 else 5/100) else 0) := by
  unfold notabilityManMadeStep
  dsimp only
  split_ifs <;> first | ring1 | (exfalso; simp_all; done) | (exfalso; casesm* _ ∨ _ <;> simp_all)

set_option maxHeartbeats 1600000 in
/-- Helper for C8: the accumulated score equals the amended table sum. -/
theorem calculateNotabilityScore_eq_amendedSum (tags : Tags) :
    calculateNotabilityScore tags = specNotabilityAmendedSum tags := by
  unfold calculateNotabilityScore
  rw [notabilityWebsiteStep_shift, notabilityManMadeStep_shift, notabilityHistoricStep_shift,
    notabilityTourismStep_shift, notabilityBuildingStep_shift,
    notabilityBuildingStep_zero, notabilityTourismStep_zero, notabilityHistoricStep_zero,
    notabilityManMadeStep_zero, notabilityWikiStep_zero, notabilityWebsiteStep_zero]
  unfold specNotabilityAmendedSum
  dsimp only
  ring1

/-- C8 (amended): the computed notability score is the capped sum of the
spec's signal table extended with the two signals the table omits: any
other non-empty `historic` value contributes `+0.1`, and a
`contact:website` tag also triggers the website contribution. -/
theorem claim8_notability_matches_amended_table (tags : Tags) :
    calculateNotability tags = specNotabilityAmended tags := by
  unfold calculateNotability specNotabilityAmended
  rw [calculateNotabilityScore_eq_amendedSum]

/-- C8 (counterexample): a feature tagged `historic=ruins` scores `0.1`,
while the spec's table (under which tags outside the table contribute
nothing) gives `0`. -/
theorem claim8_notability_counterexample :
    calculateNotability [("historic".data, "ruins".data)] ≠
      specNotabilityTable [("historic".data, "ruins".data)] := by
  with_unfolding_all decide

/-- Helper for C1: any survivor of the inner result scan is within 25 km of
the city center and country-compatible. -/
theorem geocodeScanResults_sound (hav : ℚ → ℚ → ℚ → ℚ → ℚ) (ci : CityInfo) :
    ∀ (rs : List GeoResult) (r : GeoResult), geocodeScanResults hav ci rs = some r →
      hav r.lat r.lon ci.lat ci.lon ≤ 25 ∧
      (pyLower ci.countryCode ≠ [] → pyLower r.countryCode ≠ [] →
        pyLower r.countryCode = pyLower ci.countryCode)
  | [], r, h => by simp [geocodeScanResults] at h
  | x :: rest, r, h => by
    rw [geocodeScanResults] at h
    by_cases h0 : x.lat = 0 ∧ x.lon = 0
    · rw [if_pos h0] at h
      exact geocodeScanResults_sound hav ci rest r h
    · rw [if_neg h0] at h
      by_cases hd : hav x.lat x.lon ci.lat ci.lon > 25
      · rw [if_pos hd] at h
        exact geocodeScanResults_sound hav ci rest r h
      · rw [if_neg hd] at h
        by_cases hc : pyLower ci.countryCode ≠ [] ∧ pyLower x.countryCode ≠ [] ∧
            pyLower x.countryCode ≠ pyLower ci.countryCode
        · rw [if_pos hc] at h
          exact geocodeScanResults_sound hav ci rest r h
        · rw [if_neg hc] at h
          injection h with h
          subst h
          refine ⟨le_of_not_lt hd, fun hcc hrc => ?_⟩
          by_contra hne
          exact hc ⟨hcc, hrc, hne⟩

/-- C1: every result returned by the distance-and-country check strategy is
within 25 km (by the code's distance function) of the resolved city center,
and, whenever both the city's and the result's country codes are non-empty,
the two codes agree (case-insensitively); candidates violating either
condition are skipped and never returned. -/
theorem claim1_geocode_distance_country (hav : ℚ → ℚ → ℚ → ℚ → ℚ) (ci : CityInfo)
    (rs1 rs2 : List GeoResult) (r : GeoResult)
    (h : geocodeWithDistanceCheck hav ci rs1 rs2 = some r) :
    hav r.lat r.lon ci.lat ci.lon ≤ 25 ∧
    (pyLower ci.countryCode ≠ [] → pyLower r.countryCode ≠ [] →
      pyLower r.countryCode = pyLower ci.countryCode) := by
  rw [geocodeWithDistanceCheck] at h
  rcases hs : geocodeScanResults hav ci rs1 with _ | r1
  · rw [hs] at h
    exact geocodeScanResults_sound hav ci rs2 r h
  · rw [hs] at h
    injection h with h
    subst h
    exact geocodeScanResults_sound hav ci rs1 r1 hs

/-- C1 witness: a concrete city, distance function and response for which
the check returns a result satisfying both conditions. -/
theorem claim1_geocode_distance_country_witness :
    geocodeWithDistanceCheck (fun _ _ _ _ => 7) ⟨0, 0, "DE".data⟩
        [⟨50, 8, "de".data⟩] [] = some ⟨50, 8, "de".data⟩ ∧
    (7 : ℚ) ≤ 25 ∧
    (pyLower "DE".data ≠ [] → pyLower "de".data ≠ [] →
      pyLower "de".data = pyLower "DE".data) := by
  refine ⟨by with_unfolding_all decide, ?_⟩
  exact claim1_geocode_distance_country (fun _ _ _ _ => 7) ⟨0, 0, "DE".data⟩
    [⟨50, 8, "de".data⟩] [] ⟨50, 8, "de".data⟩ (by with_unfolding_all decide)

/-- `get` never grows the cache. -/
theorem lruGet_length_le {V : Type} (c : LRUCache V) (now : Nat) (key : PyStr) :
    ((lruGet c now key).2).cache.length ≤ c.cache.length := by
  unfold lruGet
  rcases hf : c.cache.find? (fun e => e.1 = key) with _ | ⟨k, ts, v⟩
  · simp [hf]
  · rw [hf]
    dsimp only
    have hmem := List.mem_of_find?_eq_some hf
    have hp := List.find?_some hf
    split
    · simpa using List.length_eraseP_le c.cache
    · simp only
      rw [List.length_append, List.length_eraseP_of_mem hmem hp]
      simp only [List.length_cons, List.length_nil]
      have : 1 ≤ c.cache.length := List.length_pos_of_mem hmem
      omega

/-- `get` preserves the configured capacity. -/
theorem lruGet_maxSize {V : Type} (c : LRUCache V) (now : Nat) (key : PyStr) :
    ((lruGet c now key).2).maxSize = c.maxSize := by
  unfold lruGet
  rcases hf : c.cache.find? (fun e => e.1 = key) with _ | ⟨k, ts, v⟩
  · simp [hf]
  · rw [hf]
    dsimp only
    split <;> rfl

/-- `move_to_end` preserves the number of entries. -/
theorem moveToEnd_length {V : Type} (key : PyStr) (l : List (PyStr × Nat × V)) :
    (moveToEnd key l).length = l.length := by
  unfold moveToEnd
  rcases hf : l.find? (fun e => e.1 = key) with _ | e
  · simp [hf]
  · rw [hf]
    dsimp only
    have hmem := List.mem_of_find?_eq_some hf
    have hp := List.find?_some hf
    rw [List.length_append, List.length_eraseP_of_mem hmem hp]
    have : 1 ≤ l.length := List.length_pos_of_mem hmem
    simp only [List.length_cons, List.length_nil]
    omega

/-- Dictionary assignment grows the entry list by at most one. -/
theorem setAssoc_length_le {V : Type} (l : List (PyStr × Nat × V)) (key : PyStr)
    (tsv : Nat × V) : (setAssoc l key tsv).length ≤ l.length + 1 := by
  unfold setAssoc
  split_ifs <;> simp

/-- `set` keeps the cache within capacity. -/
theorem lruSet_length_le {V : Type} (c : LRUCache V) (now : Nat) (key : PyStr) (v : V)
    (h : c.cache.length ≤ c.maxSize) :
    (lruSet c now key v).cache.length ≤ c.maxSize := by
  unfold lruSet
  simp only
  set l0 := if c.cache.any (fun e => e.1 = key) then moveToEnd key c.cache else c.cache with hl0
  have h0 : l0.length = c.cache.length := by
    rw [hl0]
    split_ifs
    · exact moveToEnd_length key c.cache
    · rfl
  have h1 := setAssoc_length_le l0 key (now, v)
  set l1 := setAssoc l0 key (now, v)
  by_cases hover : l1.length > c.maxSize
  · rw [if_pos hover]
    simp only [List.length_tail]
    omega
  · rw [if_neg hover]
    omega

/-- `set` preserves the configured capacity. -/
theorem lruSet_maxSize {V : Type} (c : LRUCache V) (now : Nat) (key : PyStr) (v : V) :
    (lruSet c now key v).maxSize = c.maxSize := rfl

/-- The capacity invariant is preserved by any run. -/
theorem lruRun_invariant {V : Type} :
    ∀ (ops : List (LRUOp V)) (c : LRUCache V), c.cache.length ≤ c.maxSize →
      (lruRun c ops).cache.length ≤ (lruRun c ops).maxSize ∧
      (lruRun c ops).maxSize = c.maxSize
  | [], c, h => ⟨h, rfl⟩
  | .get now key :: rest, c, h => by
    rw [lruRun]
    have h1 := lruGet_length_le c now key
    have h2 := lruGet_maxSize c now key
    have := lruRun_invariant rest (lruGet c now key).2 (by omega)
    omega
  | .set now key v :: rest, c, h => by
    rw [lruRun]
    have h1 := lruSet_length_le c now key v h
    have h2 := lruSet_maxSize c now key v
    have := lruRun_invariant rest (lruSet c now key v) (by omega)
    omega

/-- C10: starting from a fresh cache, after any sequence of `get`/`set`
operations the cache holds at most `max_size` entries; and a `set` of a
fresh key into an exactly-full cache appends the new entry and evicts the
front entry, which is the least recently used one. -/
theorem claim10_lru_capacity (V : Type) (maxSize ttl : Nat) (ops : List (LRUOp V)) :
    (lruRun (lruInit V maxSize ttl) ops).cache.length ≤ maxSize ∧
    (∀ (c : LRUCache V) (now : Nat) (key : PyStr) (v : V),
      c.cache.length = c.maxSize → 0 < c.maxSize →
      c.cache.any (fun e => e.1 = key) = false →
      (lruSet c now key v).cache = c.cache.tail ++ [(key, (now, v))]) := by
  constructor
  · have := lruRun_invariant (V := V) ops (lruInit V maxSize ttl) (by simp [lruInit])
    have hm : (lruRun (lruInit V maxSize ttl) ops).maxSize = maxSize := this.2
    omega
  · intro c now key v hfull hpos hfresh
    unfold lruSet
    simp only [hfresh, Bool.false_eq_true, if_false]
    have hassoc : setAssoc c.cache key (now, v) = c.cache ++ [(key, (now, v))] := by
      unfold setAssoc
      rw [hfresh]
      simp
    rw [hassoc]
    have hlen : (c.cache ++ [(key, (now, v))]).length > c.maxSize := by
      simp [hfull]
    rw [if_pos hlen]
    rcases hc : c.cache with _ | ⟨e, rest⟩
    · exfalso
      rw [hc] at hfull
      simp at hfull
      omega
    · simp

/-- C10 witness: a concrete run over capacity 2 stays within 2 entries, and
a concrete full cache evicts its front entry on a fresh `set`. -/
theorem claim10_lru_capacity_witness :
    (lruRun (lruInit Nat 2 100)
      [.set 0 "a".data 1, .set 1 "b".data 2, .set 2 "c".data 3]).cache.length ≤ 2 ∧
    ((⟨2, 100, [("a".data, 0, 1), ("b".data, 1, 2)]⟩ : LRUCache Nat).cache.length = 2 → 0 < 2 →
      ([("a".data, (0 : Nat), (1 : Nat)), ("b".data, 1, 2)].any (fun e => e.1 = "c".data)
        = false) →
      (lruSet (⟨2, 100, [("a".data, 0, 1), ("b".data, 1, 2)]⟩ : LRUCache Nat)
          5 "c".data 3).cache =
        [("b".data, 1, 2), ("c".data, (5 : Nat), (3 : Nat))]) := by
  refine ⟨(claim10_lru_capacity Nat 2 100 _).1, fun h1 h2 h3 => ?_⟩
  have := (claim10_lru_capacity Nat 2 100 []).2
    (⟨2, 100, [("a".data, 0, 1), ("b".data, 1, 2)]⟩ : LRUCache Nat) 5 "c".data 3 h1 h2 h3
  simpa using this

/-- `Char.ofNat` round-trips on small code points. -/
theorem toNat_ofNat_small (n : Nat) (h : n < 55296) : (Char.ofNat n).toNat = n := by
  have hv : n.isValidChar := Or.inl h
  rw [Char.ofNat, dif_pos hv]
  simp [Char.ofNatAux, Char.toNat, UInt32.toNat]

/-- Uppercasing does not change whether a character is whitespace. -/
theorem pyIsSpace_upperChar (c : Char) : pyIsSpace (pyUpperChar c) = pyIsSpace c := by
  unfold pyUpperChar
  by_cases h : 97 ≤ c.toNat ∧ c.toNat ≤ 122
  · rw [if_pos h]
    rw [Bool.eq_iff_iff]
    simp only [pyIsSpace, Bool.or_eq_true, decide_eq_true_eq,
      toNat_ofNat_small (c.toNat - 32) (by omega)]
    omega
  · rw [if_neg h]

/-- Lowercasing after uppercasing equals lowercasing. -/
theorem pyLowerChar_upperChar (c : Char) : pyLowerChar (pyUpperChar c) = pyLowerChar c := by
  unfold pyUpperChar pyLowerChar
  by_cases h : 97 ≤ c.toNat ∧ c.toNat ≤ 122
  · rw [if_pos h]
    rw [toNat_ofNat_small (c.toNat - 32) (by omega)]
    rw [if_pos (by omega), if_neg (by omega)]
    have : c.toNat - 32 + 32 = c.toNat := by omega
    rw [this, Char.ofNat_toNat]
  · rw [if_neg h]

/-- `dropWhile` skips over a fully-satisfying prefix. -/
theorem dropWhile_append_of_all (p : Char → Bool) (l1 l2 : List Char)
    (h : ∀ c ∈ l1, p c) : (l1 ++ l2).dropWhile p = l2.dropWhile p := by
  induction l1 with
  | nil => rfl
  | cons a rest ih =>
    rw [List.cons_append, List.dropWhile_cons_of_pos (h a (List.mem_cons_self a rest))]
    exact ih (fun c hc => h c (List.mem_cons_of_mem a hc))

/-- Stripping ignores surrounding whitespace. -/
theorem pyStrip_sandwich (s ws1 ws2 : PyStr)
    (hw1 : ∀ c ∈ ws1, pyIsSpace c) (hw2 : ∀ c ∈ ws2, pyIsSpace c) :
    pyStrip (ws1 ++ s ++ ws2) = pyStrip s := by
  unfold pyStrip
  rw [List.append_assoc, dropWhile_append_of_all pyIsSpace ws1 (s ++ ws2) hw1]
  rw [List.dropWhile_append]
  by_cases hs : (s.dropWhile pyIsSpace).isEmpty
  · rw [if_pos hs]
    rw [List.isEmpty_iff] at hs
    rw [hs]
    have hw2' : ws2.dropWhile pyIsSpace = [] := by
      rw [List.dropWhile_eq_nil_iff]
      exact fun c hc => by simpa using hw2 c hc
    rw [hw2']
  · rw [if_neg hs]
    rw [List.reverse_append, dropWhile_append_of_all pyIsSpace ws2.reverse
      (s.dropWhile pyIsSpace).reverse (fun c hc => hw2 c (List.mem_reverse.mp hc))]

/-- Stripping commutes with uppercasing. -/
theorem pyStrip_upper (s : PyStr) : pyStrip (pyUpper s) = pyUpper (pyStrip s) := by
  have hpf : (pyIsSpace ∘ pyUpperChar) = pyIsSpace := funext fun c => pyIsSpace_upperChar c
  unfold pyStrip pyUpper
  rw [List.dropWhile_map, hpf, ← List.map_reverse, List.dropWhile_map, hpf,
    ← List.map_reverse]

/-- Lowercasing an uppercased string equals lowercasing the string. -/
theorem pyLower_upper (s : PyStr) : pyLower (pyUpper s) = pyLower s := by
  unfold pyLower pyUpper
  rw [List.map_map]
  exact List.map_congr_left fun c _ => pyLowerChar_upperChar c

/-- Sorting is invariant under permutation of the input. -/
theorem pySorted_perm_eq (l1 l2 : List PyStr) (h : l1.Perm l2) :
    pySorted l1 = pySorted l2 := by
  unfold pySorted
  haveI : IsAntisymm PyStr (· ≤ ·) := ⟨fun a b h1 h2 => le_antisymm h1 h2⟩
  haveI : IsTotal PyStr (· ≤ ·) := ⟨fun a b => le_total a b⟩
  haveI : IsTrans PyStr (· ≤ ·) := ⟨fun a b c h1 h2 => le_trans h1 h2⟩
  refine List.eq_of_perm_of_sorted (r := (· ≤ ·)) ?_ ?_ ?_
  · exact ((List.perm_insertionSort _ l1).trans h).trans (List.perm_insertionSort _ l2).symm
  · exact List.sorted_insertionSort _ l1
  · exact List.sorted_insertionSort _ l2

/-- C7: the discovery cache key is invariant under upper-casing and
surrounding whitespace of the city and under permutation of the interests
list, and it has the canonical
`discover:{city_lower}:{limit}:{sorted_interests_csv_or_default}` shape. -/
theorem claim7_discover_cache_key (city : PyStr) (limit : Nat) (ints perm : List PyStr)
    (ws1 ws2 : PyStr) (hw1 : ∀ c ∈ ws1, pyIsSpace c) (hw2 : ∀ c ∈ ws2, pyIsSpace c)
    (hperm : perm.Perm ints) :
    discoverCacheKey (ws1 ++ pyUpper city ++ ws2) limit (some perm) =
      discoverCacheKey city limit (some ints) ∧
    discoverCacheKey city limit (some ints) =
      "discover:".data ++ pyLower (pyStrip city) ++ [':'] ++ natToStr limit ++ [':'] ++
        (if ints.isEmpty then "default".data else pyJoin [','] (pySorted ints)) := by
  have hcity : pyLower (pyStrip (ws1 ++ pyUpper city ++ ws2)) = pyLower (pyStrip city) := by
    rw [pyStrip_sandwich (pyUpper city) ws1 ws2 hw1 hw2, pyStrip_upper, pyLower_upper]
  constructor
  · unfold discoverCacheKey
    rcases hi : ints with _ | ⟨i, rest⟩
    · have hp : perm = [] := by
        rw [hi] at hperm
        exact List.Perm.eq_nil hperm
      rw [hp]
      simp only [hcity]
    · rcases hp : perm with _ | ⟨j, prest⟩
      · exfalso
        rw [hp, hi] at hperm
        exact List.noConfusion (List.Perm.nil_eq hperm)
      · have hsort : pySorted (j :: prest) = pySorted (i :: rest) := by
          refine pySorted_perm_eq _ _ ?_
          rw [← hp, ← hi]
          exact hperm
        simp only [hcity, hsort]
  · unfold discoverCacheKey
    rcases ints with _ | ⟨i, rest⟩
    · rfl
    · rfl

/-- C7 witness: a concrete key built from `" PARIS "` and reversed interests
equals the key built from `"paris"`, in canonical shape. -/
theorem claim7_discover_cache_key_witness :
    discoverCacheKey ([' '] ++ pyUpper "paris".data ++ [' ']) 18 (some ["b".data, "a".data]) =
      discoverCacheKey "paris".data 18 (some ["a".data, "b".data]) ∧
    discoverCacheKey "paris".data 18 (some ["a".data, "b".data]) =
      "discover:".data ++ pyLower (pyStrip "paris".data) ++ [':'] ++ natToStr 18 ++ [':'] ++
        (if (["a".data, "b".data] : List PyStr).isEmpty then "default".data
         else pyJoin [','] (pySorted ["a".data, "b".data])) :=
  claim7_discover_cache_key "paris".data 18 ["a".data, "b".data] ["b".data, "a".data]
    [' '] [' '] (by decide) (by decide) (by decide)

theorem readChunks_encodeChunks : ∀ (n : Nat) (rest : List Char) (shift acc : Nat),
    readChunks (encodeChunks n ++ rest) shift acc = some (acc + n * 2 ^ shift, rest)
  | n, rest, shift, acc => by
    rw [encodeChunks]
    by_cases h : n ≥ 32
    · rw [if_pos h, List.cons_append, readChunks]
      have hm : n % 32 < 32 := Nat.mod_lt n (by omega)
      have hc : (Char.ofNat (32 + n % 32 + 63)).toNat = 32 + n % 32 + 63 :=
        toNat_ofNat_small _ (by omega)
      simp only [hc]
      split_ifs with hcond
      · exfalso
        omega
      · have hx : ((32 + n % 32 + 63 : Nat) : Int) - 63 = ((n % 32 : Nat) : Int) + 32 := by
          push_cast
          ring
        rw [hx]
        have hemod : ((((n % 32 : Nat) : Int) + 32) % 32).toNat = n % 32 := by omega
        rw [hemod, readChunks_encodeChunks (n / 32) rest (shift + 5) _]
        have harith : acc + n % 32 * 2 ^ shift + n / 32 * 2 ^ (shift + 5) =
            acc + n * 2 ^ shift := by
          have hp : (2 : Nat) ^ (shift + 5) = 2 ^ shift * 32 := by
            rw [pow_add]
            norm_num
          rw [hp]
          conv_rhs => rw [← Nat.div_add_mod n 32]
          ring
        rw [harith]
    · rw [if_neg h, List.cons_append, readChunks]
      have hc : (Char.ofNat (n + 63)).toNat = n + 63 := toNat_ofNat_small _ (by omega)
      simp only [hc]
      split_ifs with hcond
      · have hx : ((n + 63 : Nat) : Int) - 63 = ((n : Nat) : Int) := by
          push_cast
          ring
        rw [hx]
        have hemod : (((n : Nat) : Int) % 32).toNat = n := by omega
        rw [hemod]
        simp
      · exfalso
        omega
  termination_by n => n
  decreasing_by
    exact Nat.div_lt_self (by omega) (by omega)

theorem unzigzag_zigzag (d : Int) : unzigzag (zigzag d) = d := by
  unfold zigzag unzigzag
  split_ifs <;> omega

theorem readChunks_encodeValue (d : Int) (rest : List Char) :
    readChunks (encodeValue d ++ rest) 0 0 = some (zigzag d, rest) := by
  rw [encodeValue, readChunks_encodeChunks]
  simp

theorem encodeChunks_ne_nil (v : Nat) : encodeChunks v ≠ [] := by
  rw [encodeChunks]
  split_ifs <;> simp

theorem pyRound_intCast (k : Int) : pyRound ((k : ℚ)) = k := by
  unfold pyRound
  rw [Int.floor_intCast]
  norm_num

theorem div_mul_100000 (k : Int) : ((k : ℚ)) / 100000 * 100000 = (k : ℚ) := by
  rw [div_mul_cancel₀]
  norm_num

theorem decodeAux_cons_eq (lat lng : Int) (c : Char) (rest : List Char) :
    decodeAux lat lng (c :: rest) =
      match readChunks (c :: rest) 0 0 with
      | none => none
      | some (r1, cs1) =>
        match readChunks cs1 0 0 with
        | none => none
        | some (r2, cs2) =>
          match decodeAux (lat + unzigzag r1) (lng + unzigzag r2) cs2 with
          | none => none
          | some pts =>
            some ((((lat + unzigzag r1 : Int) : ℚ) / 100000,
                  ((lng + unzigzag r2 : Int) : ℚ) / 100000) :: pts) := by
  rw [decodeAux.eq_def]
  dsimp only
  split
  · rename_i hr1
    simp only [hr1]
  · rename_i r1 cs1 hr1
    simp only [hr1]
    split
    · rename_i hr2
      simp only [hr2]
    · rename_i r2 cs2 hr2
      simp only [hr2]

theorem decodeAux_nil (lat lng : Int) : decodeAux lat lng [] = some [] := by
  rw [decodeAux.eq_def]

theorem decodeAux_encode_pair (lat lng d1 d2 : Int) (tail : List Char) :
    decodeAux lat lng (encodeValue d1 ++ (encodeValue d2 ++ tail)) =
      match decodeAux (lat + d1) (lng + d2) tail with
      | none => none
      | some pts =>
        some ((((lat + d1 : Int) : ℚ) / 100000, ((lng + d2 : Int) : ℚ) / 100000) :: pts) := by
  obtain ⟨c, cs, hE⟩ : ∃ c cs, encodeValue d1 = c :: cs := by
    rcases hE : encodeValue d1 with _ | ⟨c, cs⟩
    · exact absurd hE (encodeChunks_ne_nil _)
    · exact ⟨c, cs, rfl⟩
  have hR1 : readChunks (c :: (cs ++ (encodeValue d2 ++ tail))) 0 0 =
      some (zigzag d1, encodeValue d2 ++ tail) := by
    rw [← List.cons_append, ← hE]
    exact readChunks_encodeValue d1 _
  rw [hE, List.cons_append, decodeAux_cons_eq]
  simp only [hR1, readChunks_encodeValue d2 tail, unzigzag_zigzag]

theorem decodeAux_encodeAux (lat lng : Int) (cs : List Char) :
    ∀ (pts : List (ℚ × ℚ)), decodeAux lat lng cs = some pts →
      decodeAux lat lng (encodeAux lat lng pts) = some pts := by
  induction lat, lng, cs using decodeAux.induct with
  | case1 lat lng =>
    intro pts h
    rw [decodeAux_nil] at h
    injection h with h
    subst h
    rw [encodeAux, decodeAux_nil]
  | case2 lat lng c rest h1 =>
    intro pts h
    rw [decodeAux_cons_eq] at h
    simp only [h1] at h
    exact Option.noConfusion h
  | case3 lat lng c rest r1 cs1 h1 h2 =>
    intro pts h
    rw [decodeAux_cons_eq] at h
    simp only [h1, h2] at h
    exact Option.noConfusion h
  | case4 lat lng c rest r1 cs1 h1 r2 cs2 h2 latp lngp hdec ih =>
    intro pts h
    have hdec2 : decodeAux (lat + unzigzag r1) (lng + unzigzag r2) cs2 = none := hdec
    rw [decodeAux_cons_eq] at h
    simp only [h1, h2, hdec2] at h
    exact Option.noConfusion h
  | case5 lat lng c rest r1 cs1 h1 r2 cs2 h2 latp lngp pts0 hdec ih =>
    intro pts h
    have hdec2 : decodeAux (lat + unzigzag r1) (lng + unzigzag r2) cs2 = some pts0 := hdec
    have ih2 : decodeAux (lat + unzigzag r1) (lng + unzigzag r2)
        (encodeAux (lat + unzigzag r1) (lng + unzigzag r2) pts0) = some pts0 :=
      ih pts0 hdec
    rw [decodeAux_cons_eq] at h
    simp only [h1, h2, hdec2] at h
    injection h with h
    subst h
    rw [encodeAux]
    rw [div_mul_100000, div_mul_100000, pyRound_intCast, pyRound_intCast]
    rw [List.append_assoc, decodeAux_encode_pair]
    have hd1 : lat + (lat + unzigzag r1 - lat) = lat + unzigzag r1 := by ring
    have hd2 : lng + (lng + unzigzag r2 - lng) = lng + unzigzag r2 := by ring
    rw [hd1, hd2, ih2]

/-- C3: polyline round-trip.  For every encoded polyline `p` that
`_decode_polyline` parses into a point list, re-encoding that point list
yields a polyline that decodes to exactly the same point list: the decoded
coordinates of `encode(decode(p))` and of `p` agree with zero error, which
is within the claimed `±1e-5`-degree tolerance on a single coordinate.
(The strings themselves may differ when `p` uses non-minimal chunk padding,
e.g. `"_??"` and `"??"` decode identically; the tolerance clause of the
claim covers exactly this.) -/
theorem claim3_polyline_roundtrip (p : PyStr) (pts : List (ℚ × ℚ))
    (h : decodePolyline p = some pts) :
    decodePolyline (encodePolyline pts) = some pts := by
  rw [decodePolyline, encodePolyline]
  rw [decodePolyline] at h
  exact decodeAux_encodeAux 0 0 p pts h

set_option maxRecDepth 4000 in
/-- C3 witness: the classic polyline `"_p~iF~ps|U"` decodes to
`(38.5, -120.2)` and survives the round trip. -/
theorem claim3_polyline_roundtrip_witness :
    decodePolyline "_p~iF~ps|U".data = some [(77/2, -601/5)] ∧
    decodePolyline (encodePolyline [(77/2, -601/5)]) = some [(77/2, -601/5)] :=
  ⟨by with_unfolding_all decide,
   claim3_polyline_roundtrip "_p~iF~ps|U".data [(77/2, -601/5)]
     (by with_unfolding_all decide)⟩



theorem distributeDays_join : ∀ (dl : Nat) (remaining : List POI) (dayNum : Nat),
    ((distributeDays remaining dayNum dl).1.map (·.pois)).flatten ++
      (distributeDays remaining dayNum dl).2 = remaining
  | 0, remaining, dayNum => by simp [distributeDays]
  | dl + 1, remaining, dayNum => by
    by_cases hr : remaining.isEmpty
    · rw [List.isEmpty_iff] at hr
      subst hr
      simp [distributeDays]
    · rw [distributeDays, if_neg hr]
      simp only [List.map_cons, List.flatten_cons, List.append_assoc]
      rw [distributeDays_join dl]
      exact List.take_append_drop _ remaining

theorem distributeDays_nil (dayNum dl : Nat) : distributeDays [] dayNum dl = ([], []) := by
  cases dl <;> simp [distributeDays]

theorem ceilDiv_le (a m k : Nat) (hm : 0 < m) (h : a ≤ k * m) : ceilDiv a m ≤ k := by
  obtain ⟨m', rfl⟩ : ∃ m', m = m' + 1 := ⟨m - 1, by omega⟩
  unfold ceilDiv
  rw [Nat.div_le_iff_le_mul_add_pred (by omega)]
  rw [Nat.mul_comm] at h
  have e1 : a + (m' + 1) - 1 = a + m' := by omega
  have e2 : m' + 1 - 1 = m' := by omega
  rw [e1, e2]
  linarith

theorem le_mul_ceilDiv (a m : Nat) (hm : 0 < m) : a ≤ m * ceilDiv a m := by
  unfold ceilDiv
  have h1 := Nat.div_add_mod (a + m - 1) m
  have h2 : (a + m - 1) % m < m := Nat.mod_lt _ hm
  omega

theorem distributeDays_leftover_nil : ∀ (dl : Nat) (remaining : List POI) (dayNum : Nat),
    remaining.length ≤ 10 * dl → (distributeDays remaining dayNum dl).2 = []
  | 0, remaining, dayNum, h => by
    have : remaining = [] := List.eq_nil_of_length_eq_zero (by omega)
    subst this
    rfl
  | dl + 1, remaining, dayNum, h => by
    by_cases hr : remaining.isEmpty
    · rw [List.isEmpty_iff] at hr
      subst hr
      simp [distributeDays]
    · rw [distributeDays, if_neg hr]
      simp only
      apply distributeDays_leftover_nil dl
      have hlen : remaining.length ≤ 10 * (dl + 1) := h
      set c := ceilDiv remaining.length (dl + 1) with hc
      have hc10 : c ≤ 10 := ceilDiv_le _ _ _ (by omega) (by omega)
      have hcle : remaining.length ≤ (dl + 1) * c := le_mul_ceilDiv _ _ (by omega)
      have hexp : (dl + 1) * c = dl * c + c := by ring
      have hdc : dl * c ≤ dl * 10 := Nat.mul_le_mul_left dl hc10
      simp only [List.length_drop]
      omega

theorem renumberDays_map_pois : ∀ (days : List DayPlan) (s : Nat),
    (renumberDays days s).map (·.pois) = days.map (·.pois)
  | [], _ => rfl
  | d :: rest, s => by
    simp [renumberDays, renumberDays_map_pois rest]

theorem distributeLeftovers_nil_rem (days : List DayPlan) (n : Nat) :
    distributeLeftovers days [] n = days := by
  rw [distributeLeftovers]

theorem mem_dropLast_cons {α : Type} (a : α) (l : List α) (x : α)
    (hx : x ∈ (a :: l).dropLast) : (x = a ∧ l ≠ []) ∨ x ∈ l.dropLast := by
  cases l with
  | nil => simp at hx
  | cons b bs =>
    rw [List.dropLast_cons₂] at hx
    rcases List.mem_cons.mp hx with h | h
    · exact Or.inl ⟨h, by simp⟩
    · exact Or.inr h

theorem distributeDays_le10 : ∀ (dl : Nat) (remaining : List POI) (dayNum : Nat),
    ∀ d ∈ (distributeDays remaining dayNum dl).1, d.pois.length ≤ 10
  | 0, remaining, dayNum => by simp [distributeDays]
  | dl + 1, remaining, dayNum => by
    by_cases hr : remaining.isEmpty
    · rw [distributeDays, if_pos hr]; simp
    · rw [distributeDays, if_neg hr]
      dsimp only
      intro d hd
      rcases List.mem_cons.mp hd with rfl | hd2
      · dsimp only
        rw [List.length_take]
        omega
      · exact distributeDays_le10 dl _ _ d hd2

theorem distributeDays_dropLast_ge3 : ∀ (dl : Nat) (remaining : List POI) (dayNum : Nat),
    ∀ d ∈ (distributeDays remaining dayNum dl).1.dropLast, 3 ≤ d.pois.length
  | 0, remaining, dayNum => by simp [distributeDays]
  | dl + 1, remaining, dayNum => by
    by_cases hr : remaining.isEmpty
    · rw [distributeDays, if_pos hr]; simp
    · rw [distributeDays, if_neg hr]
      dsimp only
      intro d hd
      rcases mem_dropLast_cons _ _ _ hd with ⟨rfl, hne⟩ | hd2
      · dsimp only
        rw [List.length_take]
        by_contra hlt
        push_neg at hlt
        have ht : min (max 3 (min 10 (ceilDiv remaining.length (dl + 1))))
            remaining.length = remaining.length := by omega
        apply hne
        have hdrop : remaining.drop
            (min (max 3 (min 10 (ceilDiv remaining.length (dl + 1)))) remaining.length) = [] := by
          rw [ht]; exact List.drop_length remaining
        rw [hdrop, distributeDays_nil]
      · exact distributeDays_dropLast_ge3 dl _ _ d hd2

theorem distributeDays_ge3_of_leftover_ne : ∀ (dl : Nat) (remaining : List POI) (dayNum : Nat),
    (distributeDays remaining dayNum dl).2 ≠ [] →
    ∀ d ∈ (distributeDays remaining dayNum dl).1, 3 ≤ d.pois.length
  | 0, remaining, dayNum, _ => by simp [distributeDays]
  | dl + 1, remaining, dayNum, h => by
    by_cases hr : remaining.isEmpty
    · rw [distributeDays, if_pos hr] at h
      rw [List.isEmpty_iff] at hr
      exact absurd hr h
    · rw [distributeDays, if_neg hr] at h ⊢
      dsimp only at h ⊢
      intro d hd
      rcases List.mem_cons.mp hd with rfl | hd2
      · dsimp only
        rw [List.length_take]
        by_contra hlt
        push_neg at hlt
        have ht : min (max 3 (min 10 (ceilDiv remaining.length (dl + 1))))
            remaining.length = remaining.length := by omega
        apply h
        have hdrop : remaining.drop
            (min (max 3 (min 10 (ceilDiv remaining.length (dl + 1)))) remaining.length) = [] := by
          rw [ht]; exact List.drop_length remaining
        rw [hdrop, distributeDays_nil]
      · exact distributeDays_ge3_of_leftover_ne dl _ _ h d hd2

theorem appendToDay_ge3 (days : List DayPlan) (i : Nat) (poi : POI)
    (hI : ∀ d ∈ days, 3 ≤ d.pois.length) :
    ∀ d ∈ appendToDay days i poi, 3 ≤ d.pois.length := by
  intro d hd
  unfold appendToDay at hd
  dsimp only at hd
  by_cases hi : i < days.length
  · rcases List.mem_or_eq_of_mem_set hd with h | rfl
    · exact hI d h
    · dsimp only
      have hm : days.getD i ⟨0, [], 0⟩ ∈ days := by
        rw [List.getD_eq_getElem days ⟨0, [], 0⟩ hi]
        exact List.getElem_mem hi
      have h3 := hI _ hm
      simp only [List.length_append, List.length_cons, List.length_nil]
      omega
  · rw [List.set_eq_of_length_le (by omega)] at hd
    exact hI d hd

theorem distributeLeftovers_dropLast_ge3 : ∀ (rem : List POI) (days : List DayPlan) (n : Nat),
    (∀ d ∈ days, 3 ≤ d.pois.length) →
    ∀ d ∈ (distributeLeftovers days rem n).dropLast, 3 ≤ d.pois.length
  | [], days, n, hI => by
    rw [distributeLeftovers]
    intro d hd
    exact hI d (List.dropLast_subset _ hd)
  | poi :: rest, days, n, hI => by
    rw [distributeLeftovers]
    dsimp only
    by_cases h1 : (days.getD (minDayIdx days) ⟨0, [], 0⟩).pois.length < 10
    · rw [if_pos h1]
      exact distributeLeftovers_dropLast_ge3 rest _ n (appendToDay_ge3 days _ poi hI)
    · rw [if_neg h1]
      by_cases h2 : days.length < n
      · rw [if_pos h2]
        by_cases h3 : 3 ≤ (poi :: rest).length
        · apply distributeLeftovers_dropLast_ge3
          intro d hd
          rcases List.mem_append.mp hd with h | h
          · exact hI d h
          · rcases List.mem_singleton.mp h with rfl
            dsimp only
            simp only [List.length_take, List.length_cons]
            simp only [List.length_cons] at h3
            omega
        · have hlen : (poi :: rest).length < 3 := by omega
          have htk : ((poi :: rest).take (min 10 (poi :: rest).length)).length =
              (poi :: rest).length := by
            simp only [List.length_take]
            omega
          rw [htk, List.drop_length, distributeLeftovers_nil_rem, List.dropLast_concat]
          exact hI
      · rw [if_neg h2]
        exact distributeLeftovers_dropLast_ge3 rest _ n (appendToDay_ge3 days _ poi hI)
termination_by rem => rem.length
decreasing_by
  · simp
  · simp only [List.length_drop, List.length_take, List.length_cons]
    omega
  · simp

theorem sortChain_length (hav : ℚ → ℚ → ℚ → ℚ → ℚ) : ∀ (remaining : List POI) (last : POI),
    (sortChain hav last remaining).length = remaining.length
  | [], _ => by rw [sortChain]
  | p :: rs, last => by
    rw [sortChain]
    rw [List.length_cons, sortChain_length hav]
    have hi := argminIdxLt (fun i =>
      hav last.lat last.lng (((p :: rs).getD i ⟨0, 0, none⟩).lat)
        (((p :: rs).getD i ⟨0, 0, none⟩).lng)) (p :: rs).length (by simp)
    have h2 := List.length_eraseIdx_add_one hi
    omega
termination_by remaining => remaining.length
decreasing_by
  have hi := argminIdxLt (fun i =>
    hav last.lat last.lng (((p :: rs).getD i ⟨0, 0, none⟩).lat)
      (((p :: rs).getD i ⟨0, 0, none⟩).lng)) (p :: rs).length (by simp)
  have h2 := List.length_eraseIdx_add_one hi
  omega

theorem sortPoisGeographically_length (hav : ℚ → ℚ → ℚ → ℚ → ℚ) (pois : List POI) :
    (sortPoisGeographically hav pois).length = pois.length := by
  unfold sortPoisGeographically
  by_cases h1 : pois.length ≤ 1
  · rw [if_pos h1]
  · rw [if_neg h1]
    dsimp only
    rw [List.length_cons, sortChain_length hav]
    have hi := argminIdxLt (fun i =>
      hav ((pois.getD i ⟨0, 0, none⟩).lat) ((pois.getD i ⟨0, 0, none⟩).lng)
        ((pois.map (·.lat)).sum / pois.length) ((pois.map (·.lng)).sum / pois.length))
      pois.length (by omega)
    have h2 := List.length_eraseIdx_add_one hi
    omega

theorem renumber_pois_of_mem (days : List DayPlan) (s : Nat) (d : DayPlan)
    (hd : d ∈ renumberDays days s) : ∃ d0 ∈ days, d0.pois = d.pois := by
  have h1 : d.pois ∈ (renumberDays days s).map (·.pois) := List.mem_map_of_mem _ hd
  rw [renumberDays_map_pois] at h1
  exact List.mem_map.mp h1

theorem renumber_pois_of_mem_dropLast (days : List DayPlan) (s : Nat) (d : DayPlan)
    (hd : d ∈ (renumberDays days s).dropLast) : ∃ d0 ∈ days.dropLast, d0.pois = d.pois := by
  have h1 : d.pois ∈ ((renumberDays days s).dropLast).map (·.pois) := List.mem_map_of_mem _ hd
  rw [List.map_dropLast, renumberDays_map_pois, ← List.map_dropLast] at h1
  exact List.mem_map.mp h1

/-- C2 (amended): with `preserve_order = true` (as used by `create_itinerary`),
whenever `1 ≤ num_days` and the POIs fit the total capacity of `10 * num_days`,
the concatenation of the produced `day.pois`, in day order, equals the input
POI list: no POI is dropped, duplicated, or reordered.  (The unrestricted
claim is false: see the counterexample, where the step-4 leftover loop
appends an overflow POI to an earlier day, reordering the list; and with
`num_days = 1` POIs beyond the first 10 are dropped.) -/
theorem claim2_day_partition_concat (hav : ℚ → ℚ → ℚ → ℚ → ℚ) (pois : List POI)
    (numDays : Nat) (h1 : 1 ≤ numDays) (h2 : pois.length ≤ 10 * numDays) :
    ((organizePoisIntoDays hav pois numDays true).map (·.pois)).flatten = pois := by
  unfold organizePoisIntoDays
  by_cases hp : pois.isEmpty
  · rw [if_pos hp]
    rw [List.isEmpty_iff] at hp
    simp [hp]
  · rw [if_neg hp]
    by_cases hn : numDays = 1
    · rw [if_pos hn]
      subst hn
      simp only [List.map_cons, List.map_nil, List.flatten_cons, List.flatten_nil,
        List.append_nil]
      exact List.take_of_length_le (by omega)
    · rw [if_neg hn]
      simp only [if_true]
      have hlo : (distributeDays pois 1 numDays).2 = [] :=
        distributeDays_leftover_nil numDays pois 1 h2
      rw [hlo, distributeLeftovers_nil_rem, renumberDays_map_pois]
      have hj := distributeDays_join numDays pois 1
      rw [hlo, List.append_nil] at hj
      exact hj

/-- Witness for C2: a concrete 2-POI, 2-day instance satisfying the
hypotheses, on which the partition concatenates back to the input. -/
theorem claim2_day_partition_concat_witness :
    1 ≤ 2 ∧ ([⟨0, 0, none⟩, ⟨1, 0, none⟩] : List POI).length ≤ 10 * 2 ∧
    ((organizePoisIntoDays (fun _ _ _ _ => 0) [⟨0, 0, none⟩, ⟨1, 0, none⟩] 2 true).map
      (·.pois)).flatten = [⟨0, 0, none⟩, ⟨1, 0, none⟩] :=
  ⟨by decide, by decide,
    claim2_day_partition_concat (fun _ _ _ _ => 0) [⟨0, 0, none⟩, ⟨1, 0, none⟩] 2
      (by decide) (by decide)⟩

/-- Counterexample to C2 as stated: 21 distinct POIs over `num_days = 2` with
`preserve_order = true`.  Step 3 fills two days of 10, and the step-4 leftover
loop force-appends POI 20 to day 1 (the minimum-size day), so the
concatenation is `[0..9, 20, 10..19] ≠ [0..20]`. -/
theorem claim2_counterexample :
    ¬ (((organizePoisIntoDays (fun _ _ _ _ => 0)
        ((List.range 21).map (fun i => ⟨(i : ℚ), 0, none⟩)) 2 true).map (·.pois)).flatten
      = (List.range 21).map (fun i => (⟨(i : ℚ), 0, none⟩ : POI))) := by
  with_unfolding_all decide

/-- C6: for `num_days ≥ 2`, every day plan except possibly the final one has
at least 3 POIs, and — when the POIs fit the total capacity `10 * num_days`,
i.e. the last-resort overflow branch cannot fire — every day plan has at most
10 POIs. -/
theorem claim6_day_size_bounds (hav : ℚ → ℚ → ℚ → ℚ → ℚ) (pois : List POI) (numDays : Nat)
    (preserveOrder : Bool) (h2 : 2 ≤ numDays) :
    (∀ d ∈ (organizePoisIntoDays hav pois numDays preserveOrder).dropLast,
      3 ≤ d.pois.length) ∧
    (pois.length ≤ 10 * numDays →
      ∀ d ∈ organizePoisIntoDays hav pois numDays preserveOrder, d.pois.length ≤ 10) := by
  unfold organizePoisIntoDays
  by_cases hp : pois.isEmpty
  · rw [if_pos hp]
    exact ⟨by simp, fun _ => by simp⟩
  · rw [if_neg hp, if_neg (by omega : ¬ numDays = 1)]
    dsimp only
    have hsl : (if preserveOrder then pois else sortPoisGeographically hav pois).length
        = pois.length := by
      cases preserveOrder
      · simp [sortPoisGeographically_length]
      · simp
    set sorted := if preserveOrder then pois else sortPoisGeographically hav pois with hs
    constructor
    · intro d hd
      obtain ⟨d0, hd0, hpq⟩ := renumber_pois_of_mem_dropLast _ _ _ hd
      rw [← hpq]
      by_cases hlo : (distributeDays sorted 1 numDays).2 = []
      · rw [hlo, distributeLeftovers_nil_rem] at hd0
        exact distributeDays_dropLast_ge3 numDays sorted 1 d0 hd0
      · exact distributeLeftovers_dropLast_ge3 _ _ _
          (distributeDays_ge3_of_leftover_ne numDays sorted 1 hlo) d0 hd0
    · intro hcap d hd
      have hlo : (distributeDays sorted 1 numDays).2 = [] :=
        distributeDays_leftover_nil numDays sorted 1 (by omega)
      rw [hlo, distributeLeftovers_nil_rem] at hd
      obtain ⟨d0, hd0, hpq⟩ := renumber_pois_of_mem _ _ _ hd
      rw [← hpq]
      exact distributeDays_le10 numDays sorted 1 d0 hd0

/-- Witness for C6: a concrete 4-POI, 2-day instance (with the geographic
sort exercised via `preserve_order = false`). -/
theorem claim6_day_size_bounds_witness :
    2 ≤ 2 ∧
    ((∀ d ∈ (organizePoisIntoDays (fun _ _ _ _ => 0)
        [⟨0, 0, none⟩, ⟨1, 0, none⟩, ⟨2, 0, none⟩, ⟨3, 0, none⟩] 2 false).dropLast,
      3 ≤ d.pois.length) ∧
    (([⟨0, 0, none⟩, ⟨1, 0, none⟩, ⟨2, 0, none⟩, ⟨3, 0, none⟩] : List POI).length ≤ 10 * 2 →
      ∀ d ∈ organizePoisIntoDays (fun _ _ _ _ => 0)
        [⟨0, 0, none⟩, ⟨1, 0, none⟩, ⟨2, 0, none⟩, ⟨3, 0, none⟩] 2 false,
        d.pois.length ≤ 10)) :=
  ⟨by decide,
    claim6_day_size_bounds (fun _ _ _ _ => 0)
      [⟨0, 0, none⟩, ⟨1, 0, none⟩, ⟨2, 0, none⟩, ⟨3, 0, none⟩] 2 false (by decide)⟩

theorem minFrom_mem (f : Nat → ℚ) : ∀ (l : List Nat) (b : Nat), minFrom f b l ∈ b :: l
  | [], b => by simp [minFrom]
  | x :: xs, b => by
    unfold minFrom
    simp only [List.foldl_cons]
    have ih := minFrom_mem f xs (if f x < f b then x else b)
    unfold minFrom at ih
    rcases List.mem_cons.mp ih with h | h
    · rw [h]
      by_cases hc : f x < f b
      · rw [if_pos hc]
        exact List.mem_cons_of_mem _ (List.mem_cons_self x xs)
      · rw [if_neg hc]
        exact List.mem_cons_self _ _
    · exact List.mem_cons_of_mem _ (List.mem_cons_of_mem _ h)

theorem minTourFold_mem (m : DistanceMatrix) : ∀ (ts : List (List Nat)) (t0 : List Nat),
    minTourFold m t0 ts ∈ t0 :: ts
  | [], t0 => by simp [minTourFold]
  | x :: xs, t0 => by
    unfold minTourFold
    simp only [List.foldl_cons]
    have ih := minTourFold_mem m xs (if calcTourDistance m x < calcTourDistance m t0 then x else t0)
    unfold minTourFold at ih
    rcases List.mem_cons.mp ih with h | h
    · rw [h]
      by_cases hc : calcTourDistance m x < calcTourDistance m t0
      · rw [if_pos hc]
        exact List.mem_cons_of_mem _ (List.mem_cons_self x xs)
      · rw [if_neg hc]
        exact List.mem_cons_self _ _
    · exact List.mem_cons_of_mem _ (List.mem_cons_of_mem _ h)

theorem nodup_perm_range (visited : List Nat) (n : Nat) (hnd : visited.Nodup)
    (hsub : ∀ v ∈ visited, v < n) (hlen : n ≤ visited.length) :
    List.Perm visited (List.range n) := by
  have hsub' : visited ⊆ List.range n := fun v hv => List.mem_range.mpr (hsub v hv)
  have hsp : visited.Subperm (List.range n) := List.Nodup.subperm hnd hsub'
  apply List.Subperm.perm_of_length_le hsp
  rw [List.length_range]
  exact hlen

theorem nnAux_perm (m : DistanceMatrix) : ∀ (fuel : Nat) (visited : List Nat)
    (current : Nat) (total : ℚ), visited.Nodup → (∀ v ∈ visited, v < m.pois.length) →
    m.pois.length ≤ visited.length + fuel →
    List.Perm (nnAux m fuel visited current total).1 (List.range m.pois.length)
  | 0, visited, current, total, hnd, hsub, hlen => by
    rw [nnAux]
    exact nodup_perm_range visited _ hnd hsub (by omega)
  | fuel + 1, visited, current, total, hnd, hsub, hlen => by
    rw [nnAux]
    dsimp only
    by_cases hv : visited.length < m.pois.length
    · rw [if_pos hv]
      rcases hnb : (List.range m.pois.length).filter
          (fun j => !visited.contains j && decide (m.distances current j > 0)) with _ | ⟨j0, js⟩
      · dsimp only
        have hperm1 : List.Perm visited
            ((List.range m.pois.length).filter (fun j => visited.contains j)) := by
          rw [List.perm_ext_iff_of_nodup hnd (List.Nodup.filter _ (List.nodup_range _))]
          intro a
          simp only [List.mem_filter, List.mem_range, List.elem_iff]
          exact ⟨fun ha => ⟨hsub a ha, ha⟩, fun h => h.2⟩
        have hperm2 := List.filter_append_perm
          (fun j => visited.contains j) (List.range m.pois.length)
        exact (List.Perm.append hperm1 (List.Perm.refl _)).trans hperm2
      · dsimp only
        have hmem : minFrom (fun j => m.distances current j) j0 js ∈ j0 :: js :=
          minFrom_mem _ js j0
        rw [← hnb] at hmem
        have hnext1 : minFrom (fun j => m.distances current j) j0 js < m.pois.length :=
          List.mem_range.mp (List.mem_of_mem_filter hmem)
        have hnext2 := List.of_mem_filter hmem
        simp only [Bool.and_eq_true, Bool.not_eq_true'] at hnext2
        have hnotmem : minFrom (fun j => m.distances current j) j0 js ∉ visited := by
          simpa using hnext2.1
        apply nnAux_perm m fuel
        · rw [List.nodup_append]
          refine ⟨hnd, List.nodup_singleton _, ?_⟩
          intro a ha hb
          rw [List.mem_singleton] at hb
          exact hnotmem (hb ▸ ha)
        · intro v hv2
          rcases List.mem_append.mp hv2 with h | h
          · exact hsub v h
          · rw [List.mem_singleton] at h
            exact h ▸ hnext1
        · simp only [List.length_append, List.length_singleton]
          omega
    · rw [if_neg hv]
      exact nodup_perm_range visited _ hnd hsub (by omega)

theorem buildTourFromStart_perm (m : DistanceMatrix) (s : Nat) (hs : s < m.pois.length) :
    List.Perm (buildTourFromStart m s).1 (List.range m.pois.length) := by
  unfold buildTourFromStart
  apply nnAux_perm
  · exact List.nodup_singleton s
  · intro v hv
    rw [List.mem_singleton] at hv
    exact hv ▸ hs
  · simp

theorem findImprove_bounds (m : DistanceMatrix) (tour : List Nat) (i j : Nat)
    (h : findImprove m tour = some (i, j)) : 1 ≤ i ∧ i + 1 ≤ j := by
  unfold findImprove at h
  have hmem := List.mem_of_find?_eq_some h
  rw [List.mem_flatMap] at hmem
  obtain ⟨i', hi', hj⟩ := hmem
  rw [List.mem_map] at hj
  obtain ⟨j', hj', hpair⟩ := hj
  obtain ⟨rfl, rfl⟩ : i' = i ∧ j' = j := by
    have h1 := congrArg Prod.fst hpair
    have h2 := congrArg Prod.snd hpair
    exact ⟨h1, h2⟩
  rw [List.mem_range'_1] at hi' hj'
  omega

theorem reverseSegment_perm (tour : List Nat) (i j : Nat) (h : i ≤ j + 1) :
    List.Perm (reverseSegment tour i j) tour := by
  unfold reverseSegment
  conv_rhs => rw [← List.take_append_drop (j + 1) tour]
  conv_rhs => rw [← List.take_append_drop i (tour.take (j + 1))]
  rw [List.take_take, min_eq_left h, List.drop_take, List.append_assoc, List.append_assoc]
  apply List.Perm.append (List.Perm.refl _)
  apply List.Perm.append ?_ (List.Perm.refl _)
  exact List.reverse_perm _

theorem twoOptLoop_perm (m : DistanceMatrix) : ∀ (fuel : Nat) (tour : List Nat),
    List.Perm (twoOptLoop m fuel tour) tour
  | 0, tour => List.Perm.refl tour
  | fuel + 1, tour => by
    rw [twoOptLoop]
    rcases hfi : findImprove m tour with _ | ⟨i, j⟩
    · exact List.Perm.refl tour
    · have hb := findImprove_bounds m tour i j hfi
      exact (twoOptLoop_perm m fuel _).trans (reverseSegment_perm tour i j (by omega))

theorem twoOptImprove_perm (m : DistanceMatrix) (tour : List Nat) :
    List.Perm (twoOptImprove m tour) tour :=
  twoOptLoop_perm m 100 tour

/-- Helper: `optimize_order` returns a permutation of `0..n-1` whenever the
start policy is `None` or a valid index. -/
theorem optimizeOrder_perm (m : DistanceMatrix) (startIndex : Option Nat)
    (h : startIndex = none ∨ ∃ s, startIndex = some s ∧ s < m.pois.length) :
    List.Perm (optimizeOrder m startIndex) (List.range m.pois.length) := by
  unfold optimizeOrder
  dsimp only
  by_cases h1 : m.pois.length ≤ 1
  · rw [if_pos h1]
  · rw [if_neg h1]
    by_cases h2 : m.pois.length = 2
    · rw [if_pos h2, h2]
      have hr2 : List.range 2 = [0, 1] := rfl
      rw [hr2]
      by_cases h3 : startIndex = some 1
      · rw [if_pos h3]
        exact List.Perm.swap 0 1 []
      · rw [if_neg h3]
    · rw [if_neg h2]
      rcases h with rfl | ⟨s, rfl, hs⟩
      · dsimp only
        rcases hmap : (List.range m.pois.length).map
            (fun s => twoOptImprove m (buildTourFromStart m s).1) with _ | ⟨t0, ts⟩
        · dsimp only
          exact List.Perm.refl _
        · dsimp only
          have hmem := minTourFold_mem m ts t0
          rw [← hmap] at hmem
          rw [List.mem_map] at hmem
          obtain ⟨s, hs, heq⟩ := hmem
          rw [← heq]
          exact (twoOptImprove_perm m _).trans
            (buildTourFromStart_perm m s (List.mem_range.mp hs))
      · dsimp only
        exact (twoOptImprove_perm m _).trans (buildTourFromStart_perm m s hs)

/-- C9: for every distance matrix and every start policy that is either
`None` or a valid index, `optimize_order` returns a permutation of the POI
indices `0..n-1`: no POI is dropped or duplicated, whatever the matrix
entries. -/
theorem claim9_optimize_order_perm (m : DistanceMatrix) (startIndex : Option Nat)
    (h : startIndex = none ∨ ∃ s, startIndex = some s ∧ s < m.pois.length) :
    List.Perm (optimizeOrder m startIndex) (List.range m.pois.length) :=
  optimizeOrder_perm m startIndex h

/-- Witness for C9: a concrete 3-POI matrix with unit distances and start
index 0. -/
theorem claim9_optimize_order_perm_witness :
    ((some 0 : Option Nat) = none ∨ ∃ s, (some 0 : Option Nat) = some s ∧
      s < (⟨[⟨0, 0, none⟩, ⟨1, 0, none⟩, ⟨2, 0, none⟩], fun _ _ => 1,
        fun _ _ => 1⟩ : DistanceMatrix).pois.length) ∧
    List.Perm (optimizeOrder (⟨[⟨0, 0, none⟩, ⟨1, 0, none⟩, ⟨2, 0, none⟩], fun _ _ => 1,
        fun _ _ => 1⟩ : DistanceMatrix) (some 0))
      (List.range (⟨[⟨0, 0, none⟩, ⟨1, 0, none⟩, ⟨2, 0, none⟩], fun _ _ => 1,
        fun _ _ => 1⟩ : DistanceMatrix).pois.length) :=
  ⟨Or.inr ⟨0, rfl, by decide⟩,
    claim9_optimize_order_perm _ (some 0) (Or.inr ⟨0, rfl, by decide⟩)⟩

theorem minFrom_le (f : Nat → ℚ) : ∀ (l : List Nat) (b : Nat),
    f (minFrom f b l) ≤ f b ∧ ∀ x ∈ l, f (minFrom f b l) ≤ f x
  | [], b => by simp [minFrom]
  | x :: xs, b => by
    unfold minFrom
    simp only [List.foldl_cons]
    have ih := minFrom_le f xs (if f x < f b then x else b)
    unfold minFrom at ih
    constructor
    · by_cases hc : f x < f b
      · rw [if_pos hc]
        rw [if_pos hc] at ih
        exact le_trans ih.1 (le_of_lt hc)
      · rw [if_neg hc]
        rw [if_neg hc] at ih
        exact ih.1
    · intro y hy
      rcases List.mem_cons.mp hy with rfl | hy2
      · by_cases hc : f y < f b
        · rw [if_pos hc]
          rw [if_pos hc] at ih
          exact ih.1
        · rw [if_neg hc]
          rw [if_neg hc] at ih
          push_neg at hc
          exact le_trans ih.1 hc
      · exact ih.2 y hy2

theorem drop_one_range (n : Nat) : (List.range n).drop 1 = List.range' 1 (n - 1) := by
  cases n with
  | zero => rfl
  | succ k =>
    rw [List.range_succ_eq_map]
    simp [List.range'_eq_map_range]
    omega

theorem argminIdx_le (f : Nat → ℚ) (n k : Nat) (hk : k < n) :
    f (argminIdx f n) ≤ f k := by
  have heq : argminIdx f n = minFrom f 0 ((List.range n).drop 1) := rfl
  rw [heq]
  have h := minFrom_le f ((List.range n).drop 1) 0
  rcases Nat.eq_zero_or_pos k with rfl | hk1
  · exact h.1
  · apply h.2
    rw [drop_one_range]
    rw [List.mem_range'_1]
    omega

theorem getD_zero_append {α : Type} (l1 l2 : List α) (d : α) (h : l1 ≠ []) :
    (l1 ++ l2).getD 0 d = l1.getD 0 d := by
  cases l1 with
  | nil => exact absurd rfl h
  | cons x xs => rfl

theorem nnAux_getD_zero (m : DistanceMatrix) : ∀ (fuel : Nat) (visited : List Nat)
    (current : Nat) (total : ℚ), visited ≠ [] →
    (nnAux m fuel visited current total).1.getD 0 0 = visited.getD 0 0
  | 0, visited, current, total, hne => by rw [nnAux]
  | fuel + 1, visited, current, total, hne => by
    rw [nnAux]
    dsimp only
    by_cases hv : visited.length < m.pois.length
    · rw [if_pos hv]
      rcases hnb : (List.range m.pois.length).filter
          (fun j => !visited.contains j && decide (m.distances current j > 0)) with _ | ⟨j0, js⟩
      · dsimp only
        exact getD_zero_append _ _ _ hne
      · dsimp only
        rw [nnAux_getD_zero m fuel (visited ++ [_]) _ _ (by simp)]
        exact getD_zero_append _ _ _ hne
    · rw [if_neg hv]

theorem reverseSegment_getD_zero (tour : List Nat) (i j : Nat) (hi : 1 ≤ i)
    (ht : tour ≠ []) : (reverseSegment tour i j).getD 0 0 = tour.getD 0 0 := by
  unfold reverseSegment
  rcases tour with _ | ⟨t, ts⟩
  · exact absurd rfl ht
  · rcases i with _ | i'
    · omega
    · rw [List.take_succ_cons]
      simp

theorem twoOptLoop_getD_zero (m : DistanceMatrix) : ∀ (fuel : Nat) (tour : List Nat),
    tour ≠ [] → (twoOptLoop m fuel tour).getD 0 0 = tour.getD 0 0
  | 0, tour, _ => rfl
  | fuel + 1, tour, hne => by
    rw [twoOptLoop]
    rcases hfi : findImprove m tour with _ | ⟨i, j⟩
    · rfl
    · have hb := findImprove_bounds m tour i j hfi
      have hperm := reverseSegment_perm tour i j (by omega)
      have hne2 : reverseSegment tour i j ≠ [] := by
        intro hcon
        rw [hcon] at hperm
        have := hperm.length_eq
        simp at this
        exact hne (by
          cases tour with
          | nil => rfl
          | cons a l => simp at this)
      rw [twoOptLoop_getD_zero m fuel _ hne2]
      exact reverseSegment_getD_zero tour i j (by omega) hne

theorem buildTourFromStart_ne_nil (m : DistanceMatrix) (s : Nat) (hs : s < m.pois.length) :
    (buildTourFromStart m s).1 ≠ [] := by
  intro hcon
  have hperm := buildTourFromStart_perm m s hs
  rw [hcon] at hperm
  have := hperm.length_eq
  rw [List.length_range] at this
  simp at this
  omega

theorem optimizeOrder_getD_zero (m : DistanceMatrix) (s : Nat) (hs : s < m.pois.length) :
    (optimizeOrder m (some s)).getD 0 0 = s := by
  unfold optimizeOrder
  dsimp only
  by_cases h1 : m.pois.length ≤ 1
  · rw [if_pos h1]
    have hn1 : m.pois.length = 1 := by omega
    have hs0 : s = 0 := by omega
    rw [hn1, hs0]
    rfl
  · rw [if_neg h1]
    by_cases h2 : m.pois.length = 2
    · rw [if_pos h2]
      by_cases h3 : s = 1
      · subst h3
        rw [if_pos rfl]
        rfl
      · rw [if_neg (fun hc => h3 (Option.some.inj hc))]
        have hs0 : s = 0 := by omega
        rw [hs0]
        rfl
    · rw [if_neg h2]
      unfold twoOptImprove
      rw [twoOptLoop_getD_zero m 100 _ (buildTourFromStart_ne_nil m s hs)]
      unfold buildTourFromStart
      rw [nnAux_getD_zero m _ _ _ _ (by simp)]
      rfl

theorem map_getD_zero {α β : Type} (f : α → β) (l : List α) (d : β) (d0 : α) (h : l ≠ []) :
    (l.map f).getD 0 d = f (l.getD 0 d0) := by
  cases l with
  | nil => exact absurd rfl h
  | cons x xs => rfl

theorem trimToTimeLimit_getD_zero (dm : Nat → Nat → ℚ) (ordered : List POI)
    (order : List Nat) (limit : ℚ) :
    (trimToTimeLimit dm ordered order limit).getD 0 ⟨0, 0, none⟩ =
      ordered.getD 0 ⟨0, 0, none⟩ := by
  unfold trimToTimeLimit
  by_cases h : ordered.length ≤ 1
  · rw [if_pos h]
  · rw [if_neg h]
    rfl

/-- C5 (amended): when a starting point is provided and optimization is not
skipped, the first POI of the returned ordered list is the POI with the
smallest `hav`-distance to the starting point among the TRUNCATED input set
(the input truncated to the time-constraint cap), and it belongs to that
truncated set.  (The claim as stated — nearest among the full input set — is
false: truncation to `MAX_POIS_BY_TIME` happens before the nearest-to-start
seeding; see the counterexample.) -/
theorem claim5_nearest_start_amended (hav : ℚ → ℚ → ℚ → ℚ → ℚ) (dist dur : Nat → Nat → ℚ)
    (pois truncated : List POI) (tc : Option TimeConstraint) (slat slng : ℚ)
    (htr : truncated = match tc with
      | some c => if pois.length > maxPoisByTime c then pois.take (maxPoisByTime c) else pois
      | none => pois)
    (hne : truncated ≠ []) :
    (createOptimizedOrderedPois hav dist dur pois tc (some (slat, slng)) false).getD 0
        ⟨0, 0, none⟩ ∈ truncated ∧
    ∀ p ∈ truncated,
      hav slat slng
          ((createOptimizedOrderedPois hav dist dur pois tc (some (slat, slng))
            false).getD 0 ⟨0, 0, none⟩).lat
          ((createOptimizedOrderedPois hav dist dur pois tc (some (slat, slng))
            false).getD 0 ⟨0, 0, none⟩).lng ≤
        hav slat slng p.lat p.lng := by
  unfold createOptimizedOrderedPois
  dsimp only
  rw [← htr]
  simp only [Bool.false_eq_true, if_false]
  set f := fun i => hav slat slng ((truncated.getD i ⟨0, 0, none⟩).lat)
    ((truncated.getD i ⟨0, 0, none⟩).lng) with hf
  set s0 := argminIdx f truncated.length with hs0def
  have hlen : 0 < truncated.length := List.length_pos.mpr hne
  have hs0 : s0 < truncated.length := argminIdxLt f truncated.length hlen
  have hperm := optimizeOrder_perm ⟨truncated, dist, dur⟩ (some s0) (Or.inr ⟨s0, rfl, hs0⟩)
  have hord : optimizeOrder ⟨truncated, dist, dur⟩ (some s0) ≠ [] := by
    intro hcon
    rw [hcon] at hperm
    have hle := hperm.length_eq
    rw [List.length_range] at hle
    simp at hle
    omega
  have hhead0 : (optimizeOrder ⟨truncated, dist, dur⟩ (some s0)).getD 0 0 = s0 :=
    optimizeOrder_getD_zero ⟨truncated, dist, dur⟩ s0 hs0
  have hheadm : ((optimizeOrder ⟨truncated, dist, dur⟩ (some s0)).map
      (fun i => truncated.getD i ⟨0, 0, none⟩)).getD 0 ⟨0, 0, none⟩ =
      truncated.getD s0 ⟨0, 0, none⟩ := by
    rw [map_getD_zero _ _ _ 0 hord, hhead0]
  have hmem : truncated.getD s0 ⟨0, 0, none⟩ ∈ truncated := by
    rw [List.getD_eq_getElem truncated ⟨0, 0, none⟩ hs0]
    exact List.getElem_mem hs0
  have hmin : ∀ p ∈ truncated,
      hav slat slng (truncated.getD s0 ⟨0, 0, none⟩).lat
        (truncated.getD s0 ⟨0, 0, none⟩).lng ≤ hav slat slng p.lat p.lng := by
    intro p hp
    obtain ⟨k, hk, hpk⟩ := List.mem_iff_getElem.mp hp
    have hle := argminIdx_le f truncated.length k hk
    rw [← hs0def] at hle
    simp only [hf] at hle
    rw [List.getD_eq_getElem truncated ⟨0, 0, none⟩ hk, hpk] at hle
    exact hle
  rcases tc with _ | c
  · dsimp only
    rw [hheadm]
    exact ⟨hmem, hmin⟩
  · dsimp only
    rw [trimToTimeLimit_getD_zero, hheadm]
    exact ⟨hmem, hmin⟩

set_option maxRecDepth 10000 in
/-- Counterexample to C5 as stated: 26 POIs with descending latitudes
`26, 25, …, 1`, a `6h` constraint (cap 25) and starting point `(0, 0)`, with
`hav` measuring the candidate's latitude.  The nearest input POI has latitude
`1`, but it is truncated away before seeding, so the route starts at the
POI with latitude `2`: a strictly closer input POI exists. -/
theorem claim5_counterexample :
    ∃ p ∈ (List.range 26).map (fun i => (⟨((26 - i : ℕ) : ℚ), 0, none⟩ : POI)),
      p.lat <
      ((createOptimizedOrderedPois (fun _ _ lat _ => lat) (fun _ _ => 0) (fun _ _ => 0)
        ((List.range 26).map (fun i => (⟨((26 - i : ℕ) : ℚ), 0, none⟩ : POI)))
        (some TimeConstraint.halfDay) (some (0, 0)) false).getD 0 ⟨0, 0, none⟩).lat := by
  with_unfolding_all decide

/-- Witness for C5 (amended): three POIs with latitudes `3, 1, 2`, no time
constraint, starting point `(0, 0)`; the returned head is the latitude-1 POI. -/
theorem claim5_nearest_start_amended_witness :
    (([⟨3, 0, none⟩, ⟨1, 0, none⟩, ⟨2, 0, none⟩] : List POI) ≠ []) ∧
    ((createOptimizedOrderedPois (fun _ _ lat _ => lat) (fun _ _ => 1) (fun _ _ => 1)
        [⟨3, 0, none⟩, ⟨1, 0, none⟩, ⟨2, 0, none⟩] none (some (0, 0)) false).getD 0
        ⟨0, 0, none⟩ ∈ ([⟨3, 0, none⟩, ⟨1, 0, none⟩, ⟨2, 0, none⟩] : List POI) ∧
      ∀ p ∈ ([⟨3, 0, none⟩, ⟨1, 0, none⟩, ⟨2, 0, none⟩] : List POI),
        ((createOptimizedOrderedPois (fun _ _ lat _ => lat) (fun _ _ => 1) (fun _ _ => 1)
          [⟨3, 0, none⟩, ⟨1, 0, none⟩, ⟨2, 0, none⟩] none (some (0, 0)) false).getD 0
          ⟨0, 0, none⟩).lat ≤ p.lat) :=
  ⟨by decide,
    claim5_nearest_start_amended (fun _ _ lat _ => lat) (fun _ _ => 1) (fun _ _ => 1)
      [⟨3, 0, none⟩, ⟨1, 0, none⟩, ⟨2, 0, none⟩]
      [⟨3, 0, none⟩, ⟨1, 0, none⟩, ⟨2, 0, none⟩] none 0 0 rfl (by decide)⟩

theorem getD_zero_eq_headD {α : Type} (l : List α) (d : α) : l.getD 0 d = l.headD d := by
  cases l <;> rfl

theorem reverse_getD_zero {α : Type} [Inhabited α] (l : List α) (d : α) :
    l.reverse.getD 0 d = l.getLastD d := by
  rw [getD_zero_eq_headD, List.headD_eq_head?, List.head?_reverse,
    List.getLastD_eq_getLast?]

theorem reverse_getLastD {α : Type} (l : List α) (d : α) :
    l.reverse.getLastD d = l.getD 0 d := by
  rw [List.getLastD_eq_getLast?, List.getLast?_reverse, getD_zero_eq_headD,
    List.headD_eq_head?]

theorem getLastD_append_right {α : Type} (xs ys : List α) (d : α) (h : ys ≠ []) :
    (xs ++ ys).getLastD d = ys.getLastD d := by
  rw [List.getLastD_eq_getLast?, List.getLastD_eq_getLast?,
    List.getLast?_append_of_ne_nil xs h]

theorem getLastD_eq_getD {α : Type} : ∀ (l : List α) (d : α), l ≠ [] →
    l.getLastD d = l.getD (l.length - 1) d
  | [], d, h => absurd rfl h
  | [a], d, _ => rfl
  | a :: b :: l, d, _ => by
    rw [List.getLastD_eq_getLast?, List.getLast?_cons_cons, ← List.getLastD_eq_getLast?]
    rw [getLastD_eq_getD (b :: l) d (by simp)]
    have h1 : (a :: b :: l).length - 1 = ((b :: l).length - 1) + 1 := by
      simp
    rw [h1, List.getD_cons_succ]

theorem pathLen_append (dm : Nat → Nat → ℚ) : ∀ (xs ys : List Nat), xs ≠ [] → ys ≠ [] →
    pathLen dm (xs ++ ys) = pathLen dm xs + dm (xs.getLastD 0) (ys.getD 0 0) + pathLen dm ys
  | [], _, hx, _ => absurd rfl hx
  | [x], y :: ys', _, _ => by
    show pathLen dm (x :: y :: ys') = pathLen dm [x] + dm x y + pathLen dm (y :: ys')
    have h1 : pathLen dm (x :: y :: ys') = dm x y + pathLen dm (y :: ys') := rfl
    have h2 : pathLen dm [x] = 0 := rfl
    rw [h1, h2]
    ring
  | x1 :: x2 :: xs', ys, _, hy => by
    have ih := pathLen_append dm (x2 :: xs') ys (by simp) hy
    show dm x1 x2 + pathLen dm ((x2 :: xs') ++ ys) =
      pathLen dm (x1 :: x2 :: xs') + dm ((x1 :: x2 :: xs').getLastD 0) (ys.getD 0 0) +
        pathLen dm ys
    rw [ih]
    have hpl : pathLen dm (x1 :: x2 :: xs') = dm x1 x2 + pathLen dm (x2 :: xs') := rfl
    have hlast : (x1 :: x2 :: xs').getLastD 0 = (x2 :: xs').getLastD 0 := by
      rw [List.getLastD_eq_getLast?, List.getLast?_cons_cons, ← List.getLastD_eq_getLast?]
    rw [hpl, hlast]
    ring

theorem pathLen_reverse (dm : Nat → Nat → ℚ) (hsym : ∀ i j, dm i j = dm j i) :
    ∀ (l : List Nat), pathLen dm l.reverse = pathLen dm l
  | [] => rfl
  | [_] => rfl
  | a :: b :: rest => by
    have ih := pathLen_reverse dm hsym (b :: rest)
    rw [List.reverse_cons]
    rw [pathLen_append dm _ [a] (by simp) (by simp)]
    rw [ih]
    rw [reverse_getLastD]
    have h1 : (b :: rest).getD 0 0 = b := rfl
    have h2 : ([a] : List Nat).getD 0 0 = a := rfl
    have h3 : pathLen dm [a] = 0 := rfl
    have h4 : pathLen dm (a :: b :: rest) = dm a b + pathLen dm (b :: rest) := rfl
    rw [h1, h2, h3, h4, hsym b a]
    ring

theorem cycleLen_eq (dm : Nat → Nat → ℚ) (l : List Nat) (h : l ≠ []) :
    cycleLen dm l = pathLen dm l + dm (l.getLastD 0) (l.getD 0 0) := by
  cases l with
  | nil => exact absurd rfl h
  | cons a rest => rfl

theorem reverseSegment_cycle (dm : Nat → Nat → ℚ) (hsym : ∀ i j, dm i j = dm j i)
    (t : List Nat) (i j : Nat) (hi : 1 ≤ i) (hij : i < j) (hj : j + 1 ≤ t.length) :
    cycleLen dm (reverseSegment t i j) = cycleLen dm t + twoOptGain dm t i j := by
  unfold reverseSegment twoOptGain
  dsimp only
  set A := t.take i with hA
  set B := (t.drop i).take (j + 1 - i) with hB
  set C := t.drop (j + 1) with hC
  have hAlen : A.length = i := by
    rw [hA, List.length_take]
    omega
  have hBlen : B.length = j + 1 - i := by
    rw [hB, List.length_take, List.length_drop]
    omega
  have hAne : A ≠ [] := by
    intro hcon
    rw [hcon] at hAlen
    simp at hAlen
    omega
  have hBne : B ≠ [] := by
    intro hcon
    rw [hcon] at hBlen
    simp at hBlen
    omega
  have hT : A ++ (B ++ C) = t := by
    rw [hA, hB, hC]
    have hdd : t.drop (j + 1) = (t.drop i).drop (j + 1 - i) := by
      rw [List.drop_drop]
      congr 1
      omega
    rw [hdd, List.take_append_drop, List.take_append_drop]
  have ha : t.getD (i - 1) 0 = A.getLastD 0 := by
    rw [getLastD_eq_getD A 0 hAne, hAlen, hA, List.getD_eq_getElem?_getD,
      List.getD_eq_getElem?_getD, List.getElem?_take, if_pos (by omega : i - 1 < i)]
  have hb : t.getD i 0 = B.getD 0 0 := by
    rw [hB, List.getD_eq_getElem?_getD (t.drop i |>.take (j + 1 - i)), List.getElem?_take,
      if_pos (by omega : 0 < j + 1 - i), List.getElem?_drop, List.getD_eq_getElem?_getD]
    norm_num
  have hc : t.getD j 0 = B.getLastD 0 := by
    rw [getLastD_eq_getD B 0 hBne, hBlen, hB]
    have h1 : j + 1 - i - 1 = j - i := by omega
    rw [h1, List.getD_eq_getElem?_getD (t.drop i |>.take (j + 1 - i)), List.getElem?_take,
      if_pos (by omega : j - i < j + 1 - i), List.getElem?_drop]
    have h2 : i + (j - i) = j := by omega
    rw [h2, List.getD_eq_getElem?_getD]
  by_cases hCe : C = []
  · have hjlen : j + 1 = t.length := by
      rw [hC] at hCe
      have := List.drop_eq_nil_iff.mp hCe
      omega
    have hmod : (j + 1) % t.length = 0 := by
      rw [hjlen]
      exact Nat.mod_self _
    have hT2 : A ++ B = t := by
      rw [← hT, hCe, List.append_nil]
    have he : t.getD ((j + 1) % t.length) 0 = A.getD 0 0 := by
      rw [hmod, ← hT2, getD_zero_append A B 0 hAne]
    rw [hCe, List.append_nil, ha, hb, hc, he]
    have hABr_ne : A ++ B.reverse ≠ [] := by
      intro hcon
      rw [List.append_eq_nil] at hcon
      exact hAne hcon.1
    rw [cycleLen_eq dm _ hABr_ne,
      pathLen_append dm A B.reverse hAne (by simp [hBne]),
      pathLen_reverse dm hsym, reverse_getD_zero, getD_zero_append A B.reverse 0 hAne,
      getLastD_append_right A B.reverse 0 (by simp [hBne]), reverse_getLastD]
    conv_rhs => rw [← hT2]
    rw [cycleLen_eq dm (A ++ B) (by rw [hT2]; intro hcon; rw [hcon] at hj; simp at hj),
      pathLen_append dm A B hAne hBne, getD_zero_append A B 0 hAne,
      getLastD_append_right A B 0 hBne]
    ring
  · have hjlt : j + 1 < t.length := by
      rw [hC] at hCe
      rcases Nat.lt_or_ge (j + 1) t.length with h | h
      · exact h
      · exact absurd (List.drop_eq_nil_iff.mpr h) hCe
    have hmod : (j + 1) % t.length = j + 1 := Nat.mod_eq_of_lt hjlt
    have hCne : C ≠ [] := hCe
    have he : t.getD ((j + 1) % t.length) 0 = C.getD 0 0 := by
      rw [hmod, hC, List.getD_eq_getElem?_getD (t.drop (j + 1)), List.getElem?_drop,
        List.getD_eq_getElem?_getD]
    rw [ha, hb, hc, he]
    have hBr_ne : B.reverse ≠ [] := by simp [hBne]
    have hABr_ne : A ++ B.reverse ≠ [] := by
      intro hcon
      rw [List.append_eq_nil] at hcon
      exact hAne hcon.1
    have hABrC_ne : A ++ B.reverse ++ C ≠ [] := by
      intro hcon
      rw [List.append_eq_nil] at hcon
      exact hCne hcon.2
    rw [cycleLen_eq dm _ hABrC_ne,
      pathLen_append dm (A ++ B.reverse) C hABr_ne hCne,
      pathLen_append dm A B.reverse hAne hBr_ne,
      pathLen_reverse dm hsym, reverse_getD_zero,
      getLastD_append_right (A ++ B.reverse) C 0 hCne,
      getD_zero_append (A ++ B.reverse) C 0 hABr_ne,
      getD_zero_append A B.reverse 0 hAne,
      getLastD_append_right A B.reverse 0 hBr_ne, reverse_getLastD]
    conv_rhs => rw [← hT]
    have hABC_ne : A ++ (B ++ C) ≠ [] := by
      intro hcon
      rw [List.append_eq_nil] at hcon
      exact hAne hcon.1
    have hBC_ne : B ++ C ≠ [] := by
      intro hcon
      rw [List.append_eq_nil] at hcon
      exact hBne hcon.1
    rw [cycleLen_eq dm _ hABC_ne,
      pathLen_append dm A (B ++ C) hAne hBC_ne,
      pathLen_append dm B C hBne hCne,
      getD_zero_append A (B ++ C) 0 hAne,
      getD_zero_append B C 0 hBne,
      getLastD_append_right A (B ++ C) 0 hBC_ne,
      getLastD_append_right B C 0 hCne]
    ring

theorem findImprove_bounds2 (m : DistanceMatrix) (tour : List Nat) (i j : Nat)
    (h : findImprove m tour = some (i, j)) :
    1 ≤ i ∧ i < j ∧ j + 1 ≤ m.pois.length := by
  unfold findImprove at h
  have hmem := List.mem_of_find?_eq_some h
  rw [List.mem_flatMap] at hmem
  obtain ⟨i', hi', hj⟩ := hmem
  rw [List.mem_map] at hj
  obtain ⟨j', hj', hpair⟩ := hj
  obtain ⟨rfl, rfl⟩ : i' = i ∧ j' = j := by
    exact ⟨congrArg Prod.fst hpair, congrArg Prod.snd hpair⟩
  rw [List.mem_range'_1] at hi' hj'
  omega

theorem findImprove_gain (m : DistanceMatrix) (tour : List Nat) (i j : Nat)
    (h : findImprove m tour = some (i, j)) :
    twoOptGain m.distances tour i j < -(1 / 10) := by
  unfold findImprove at h
  have hp := List.find?_some h
  simpa using hp

theorem twoOptLoop_cycle_le (m : DistanceMatrix)
    (hsym : ∀ i j, m.distances i j = m.distances j i) : ∀ (fuel : Nat) (tour : List Nat),
    tour.length = m.pois.length →
    cycleLen m.distances (twoOptLoop m fuel tour) ≤ cycleLen m.distances tour
  | 0, tour, _ => le_refl _
  | fuel + 1, tour, hlen => by
    rw [twoOptLoop]
    rcases hfi : findImprove m tour with _ | ⟨i, j⟩
    · exact le_refl _
    · have hb := findImprove_bounds2 m tour i j hfi
      have hg := findImprove_gain m tour i j hfi
      have hcyc := reverseSegment_cycle m.distances hsym tour i j (by omega) (by omega)
        (by omega)
      have hlen2 : (reverseSegment tour i j).length = m.pois.length := by
        rw [(reverseSegment_perm tour i j (by omega)).length_eq]
        exact hlen
      have ih := twoOptLoop_cycle_le m hsym fuel (reverseSegment tour i j) hlen2
      rw [hcyc] at ih
      linarith

theorem optimizeOrder_some_eq (m : DistanceMatrix) (s : Nat) (h3 : 3 ≤ m.pois.length) :
    optimizeOrder m (some s) = twoOptImprove m (buildTourFromStart m s).1 := by
  unfold optimizeOrder
  dsimp only
  rw [if_neg (by omega), if_neg (by omega)]

/-- C4 (amended): the `-0.1`-threshold 2-opt step optimizes the CYCLE length
(`_two_opt_gain` wraps around with `tour[(j+1) % n]`), so the guarantee that
holds is about closed-tour length, and only for symmetric matrices: for every
matrix with symmetric distances and `n ≥ 3`, (i) for every valid fixed start
`s`, the returned tour's cycle length is at most the nearest-neighbour tour's
cycle length from the same start, and (ii) with no fixed start, the returned
tour's cycle length is at most the nearest-neighbour cycle length from some
start.  (The claim as stated — open-path durations, arbitrary matrices — is
false: see the counterexample, where the wrap-around edge makes 2-opt adopt a
strictly longer path.) -/
theorem claim4_two_opt_cycle_amended (m : DistanceMatrix)
    (hsym : ∀ i j, m.distances i j = m.distances j i) (h3 : 3 ≤ m.pois.length) :
    (∀ s, s < m.pois.length →
      cycleLen m.distances (optimizeOrder m (some s)) ≤
        cycleLen m.distances (buildTourFromStart m s).1) ∧
    ∃ s, s < m.pois.length ∧
      cycleLen m.distances (optimizeOrder m none) ≤
        cycleLen m.distances (buildTourFromStart m s).1 := by
  have hkey : ∀ s, s < m.pois.length →
      cycleLen m.distances (twoOptImprove m (buildTourFromStart m s).1) ≤
        cycleLen m.distances (buildTourFromStart m s).1 := by
    intro s hs
    unfold twoOptImprove
    apply twoOptLoop_cycle_le m hsym
    rw [(buildTourFromStart_perm m s hs).length_eq, List.length_range]
  constructor
  · intro s hs
    rw [optimizeOrder_some_eq m s h3]
    exact hkey s hs
  · have hopt : ∃ s, s < m.pois.length ∧
        optimizeOrder m none = twoOptImprove m (buildTourFromStart m s).1 := by
      have heq : optimizeOrder m none =
          match (List.range m.pois.length).map
              (fun s => twoOptImprove m (buildTourFromStart m s).1) with
          | [] => List.range m.pois.length
          | t0 :: ts => minTourFold m t0 ts := by
        unfold optimizeOrder
        dsimp only
        rw [if_neg (by omega), if_neg (by omega)]
      rcases hmap : (List.range m.pois.length).map
          (fun s => twoOptImprove m (buildTourFromStart m s).1) with _ | ⟨t0, ts⟩
      · exfalso
        rw [List.map_eq_nil_iff, List.range_eq_nil] at hmap
        omega
      · rw [hmap] at heq
        have hmem := minTourFold_mem m ts t0
        rw [← hmap] at hmem
        rw [List.mem_map] at hmem
        obtain ⟨s, hs, hseq⟩ := hmem
        exact ⟨s, List.mem_range.mp hs, by rw [heq]; exact hseq.symm⟩
    obtain ⟨s, hs, hseq⟩ := hopt
    exact ⟨s, hs, by rw [hseq]; exact hkey s hs⟩

/-- Counterexample to C4 as stated: on `c4cexMat` (asymmetric), starting at
index 0, nearest-neighbour builds `[0, 1, 2]` with path duration `2`, but
2-opt — evaluating gain with the wrap-around edge — rewrites it to `[0, 2, 1]`
with path duration `6`: the optimized tour is strictly WORSE than the
nearest-neighbour tour. -/
theorem claim4_counterexample :
    pathLen c4cexMat.durations (optimizeOrder c4cexMat (some 0)) >
      pathLen c4cexMat.durations (buildTourFromStart c4cexMat 0).1 := by
  with_unfolding_all decide

/-- Witness for C4 (amended): the symmetric matrix `c4symMat` on three POIs. -/
theorem claim4_two_opt_cycle_amended_witness :
    (∀ i j, c4symMat.distances i j = c4symMat.distances j i) ∧ 3 ≤ c4symMat.pois.length ∧
    ((∀ s, s < c4symMat.pois.length →
      cycleLen c4symMat.distances (optimizeOrder c4symMat (some s)) ≤
        cycleLen c4symMat.distances (buildTourFromStart c4symMat s).1) ∧
    ∃ s, s < c4symMat.pois.length ∧
      cycleLen c4symMat.distances (optimizeOrder c4symMat none) ≤
        cycleLen c4symMat.distances (buildTourFromStart c4symMat s).1) :=
  ⟨fun i j => by show ((i : ℚ) - j) ^ 2 = ((j : ℚ) - i) ^ 2; ring,
    by decide,
    claim4_two_opt_cycle_amended c4symMat
      (fun i j => by show ((i : ℚ) - j) ^ 2 = ((j : ℚ) - i) ^ 2; ring) (by decide)⟩

end CityWalker
